import Mathlib

/-!
Verification development for a Monkey-style tree-walking interpreter
(lexer → Pratt parser → AST → evaluator with lexical environments).

The definitions below are a shallow embedding of the Rust sources:
  * `src/ast.rs`        — AST data model,
  * `src/parser.rs`     — recursive-descent / precedence-climbing parser,
  * `src/eval/mod.rs`   — tree-walking evaluator,
  * `src/eval/env.rs`   — environment (scope chain),
  * `src/eval/object.rs`— runtime value model.

Modelling conventions:
  * Rust `i64` is modelled as unbounded `Int`; integer overflow is outside
    the model (the specification leaves overflow behaviour unspecified).
    Rust `/` on `i64` truncates toward zero and panics on a zero divisor;
    it is modelled by `Int.tdiv` guarded by a zero test, with the panic
    made explicit (see `evalIntegerOp` and `Res.trap`).
  * `Rc<RefCell<Env>>` sharing is modelled as an arena: environments live
    in a list `EvalSt.envs`, and a shared handle is an index into it.
  * Recursion in the evaluator and parser is not structural (function
    bodies are evaluated from closure values), so both take an explicit
    fuel parameter; running out of fuel is the distinguished outcome
    `Res.fuelOut` (evaluator) / `none` (parser).  A Rust panic (trap) is
    the distinguished outcome `Res.trap`.
  * Some Rust names collide with tokens that are reserved in this
    development; those definitions carry a comment naming the original.
-/

namespace Monkey

/-- Binary operator of the AST. Source: `ast.rs`, the eight-variant binary
operator enum (named after fix position there; renamed `BinOp` here). -/
inductive BinOp where
  | plus
  | minus
  | divide
  | product
  | equal
  | notEqual
  | greaterThan
  | lessThan
deriving DecidableEq

/-- Display string of a binary operator. Source: `ast.rs`, the `Display`
implementation for the binary operator enum. -/
def BinOp.display : BinOp → String
  | .plus => "+"
  | .minus => "-"
  | .divide => "/"
  | .product => "*"
  | .equal => "=="
  | .notEqual => "!="
  | .greaterThan => ">"
  | .lessThan => "<"

/-- Unary operator of the AST. Source: `ast.rs`, the three-variant unary
operator enum (named after fix position there; renamed `PreOp` here). -/
inductive PreOp where
  | plus
  | minus
  | not
deriving DecidableEq

/-- Literal expression. Source: `ast.rs`, `enum Literal`. -/
inductive Literal where
  | int (n : Int)
  | str (s : String)
  | bool (b : Bool)
deriving DecidableEq

mutual

/-- Expression AST. Source: `ast.rs`, `enum Expression`.  The `If` variant's
`IfExpression` struct is inlined as three fields; `Identifier(name)` is the
`id` constructor; the unary/binary constructors correspond to the source's
fix-position constructors. -/
inductive Expression where
  | id (name : String)
  | lit (l : Literal)
  | unary (op : PreOp) (right : Expression)
  | binary (op : BinOp) (left right : Expression)
  | ifE (condition : Expression) (consequence alternative : List Statement)
  | func (params : List String) (body : List Statement)
  | call (function : Expression) (args : List Expression)

/-- Statement AST. Source: `ast.rs`, `enum Statement`. -/
inductive Statement where
  | letS (name : String) (value : Expression)
  | ret (value : Expression)
  | expr (e : Expression)

end

/-- Runtime value. Source: `eval/object.rs`, `enum Object`, together with
`eval/mod.rs` which constructs `Object::String` values (the snapshot of
`object.rs` omits that variant even though `eval/mod.rs` and the REPL use
it; it is included here as `eval/mod.rs` requires).  The `Function` value's
`Rc<RefCell<Env>>` handle is the arena index `envIdx`. -/
inductive Object where
  | int (n : Int)
  | bool (b : Bool)
  | str (s : String)
  | null
  | returnValue (v : Object)
  | empty
  | function (params : List String) (body : List Statement) (envIdx : Nat)

/-- Type name of a value. Source: `eval/object.rs`, `Object::get_type`; the
`"string"` arm mirrors the `"string & string"` wording hard-coded in
`eval_string_infix` of `eval/mod.rs`. -/
def Object.getType : Object → String
  | .int _ => "int"
  | .bool _ => "bool"
  | .str _ => "string"
  | .null => "null"
  | .returnValue v => v.getType
  | .empty => "empty"
  | .function _ _ _ => "function"

/-- Evaluation error. Source: the `bail!` sites of `eval/mod.rs`, with the
formatted message fields kept as structured data: constructor arguments are
exactly the values interpolated into the corresponding Rust format string.
`parse` wraps a parse error carried inside a `Program` (in Rust both share
the one `anyhow::Error` type). -/
inductive Err where
  | identifierNotFound (name : String)
  | unsupportedBinOp (op lt rt : String)
  | unsupportedPreOp (op t : String)
  | notAFunction (callee : Object)
  | arityMismatch (expected given : Nat)
  | parse (msg : String)

/-- Outcome of an evaluator step: `ok`/`err` are Rust's `Ok`/`Err(anyhow)`;
`trap` is a Rust panic (integer division by zero); `fuelOut` is the
modelling artifact for exhausted fuel. -/
inductive Res where
  | ok (v : Object)
  | err (e : Err)
  | trap
  | fuelOut

/-- Scope frame. Source: `eval/env.rs`, `struct Env`; the `HashMap` store is
modelled as an association list where inserting conses to the front (lookup
takes the first hit, giving the map's overwrite semantics), and the
`outer: Option<Rc<RefCell<Env>>>` link is an arena index. -/
structure Env where
  store : List (String × Object)
  outer : Option Nat

/-- Evaluator state: the arena of all environments ever created plus the
index of the current environment (`self.env` of `struct Eval`). -/
structure EvalSt where
  envs : List Env
  cur : Nat

/-- Lookup in one frame's store (first hit wins, mirroring `HashMap::get`
after overwriting inserts). -/
def lookupStore : List (String × Object) → String → Option Object
  | [], _ => none
  | (k, v) :: rest, name => if k = name then some v else lookupStore rest name

/-- Walk the outer chain starting at index `i`. Source: `eval/env.rs`,
`Env::get`.  The chain is acyclic by construction (a frame's `outer` always
points to an older frame), so a fuel of `envs.length` suffices. -/
def envGetFrom (envs : List Env) : Nat → Nat → String → Option Object
  | 0, _, _ => none
  | fuel+1, i, name =>
    match envs.get? i with
    | none => none
    | some e =>
      match lookupStore e.store name with
      | some v => some v
      | none =>
        match e.outer with
        | some j => envGetFrom envs fuel j name
        | none => none

/-- Lookup through the current environment chain (`self.env.borrow().get`). -/
def EvalSt.get (st : EvalSt) (name : String) : Option Object :=
  envGetFrom st.envs st.envs.length st.cur name

/-- Insert/overwrite a binding in the current environment only.
Source: `eval/env.rs`, `Env::assign` via `self.env.borrow_mut().assign`. -/
def EvalSt.assign (st : EvalSt) (name : String) (v : Object) : EvalSt :=
  match st.envs.get? st.cur with
  | some e => { st with envs := st.envs.set st.cur { e with store := (name, v) :: e.store } }
  | none => st

/-- Initial state: one empty root environment. Source: `Eval::new`. -/
def initSt : EvalSt := ⟨[⟨[], none⟩], 0⟩

/-- Truthiness. Source: `eval/mod.rs`, `is_truthy`. -/
def isTruthy : Object → Bool
  | .null => false
  | .bool false => false
  | _ => true

/-- Literal evaluation. Source: `eval/mod.rs`, `eval_literal`. -/
def evalLiteral : Literal → Object
  | .int n => .int n
  | .bool b => .bool b
  | .str s => .str s

/-- Integer ⨯ integer operator application. Source: `eval/mod.rs`,
`eval_integer_infix` (the function after "integer" in its Rust name).
Rust's `left / right` on `i64` panics when `right == 0`; that trap is the
`none` result.  Division otherwise truncates toward zero (`Int.tdiv`). -/
def evalIntegerOp : BinOp → Int → Int → Option Object
  | .plus, l, r => some (.int (l + r))
  | .minus, l, r => some (.int (l - r))
  | .divide, l, r => if r = 0 then none else some (.int (Int.tdiv l r))
  | .product, l, r => some (.int (l * r))
  | .equal, l, r => some (.bool (decide (l = r)))
  | .greaterThan, l, r => some (.bool (decide (l > r)))
  | .lessThan, l, r => some (.bool (decide (l < r)))
  | .notEqual, l, r => some (.bool (decide (l ≠ r)))

/-- Boolean ⨯ boolean operator application. Source: `eval/mod.rs`,
`eval_bool_infix`.  Its call site guarantees both operands are
`Object::Bool`, so the payload booleans are taken directly; Rust's
`PartialEq` on two `Object::Bool` values is boolean equality, and
`get_type` of either operand is `"bool"`. -/
def evalBoolOp : BinOp → Bool → Bool → Res
  | .equal, l, r => .ok (.bool (l == r))
  | .notEqual, l, r => .ok (.bool (l != r))
  | op, _, _ => .err (.unsupportedBinOp op.display "bool" "bool")

/-- String ⨯ string operator application. Source: `eval/mod.rs`,
`eval_string_infix` (concatenation for `+`, otherwise the hard-coded
`"string & string"` error). -/
def evalStringOp : BinOp → String → String → Res
  | .plus, l, r => .ok (.str (l ++ r))
  | op, _, _ => .err (.unsupportedBinOp op.display "string" "string")

/-- Operator dispatch on two already-evaluated operands. Source:
`eval/mod.rs`, the `match (&left, &right)` of `eval_infix` (lines 122-141),
factored out of the operand evaluation so it can be stated on values. -/
def binDispatch (op : BinOp) (l r : Object) : Res :=
  match l, r with
  | .int a, .int b =>
    match evalIntegerOp op a b with
    | some o => .ok o
    | none => .trap
  | .bool a, .bool b => evalBoolOp op a b
  | .str a, .str b => evalStringOp op a b
  | _, _ => .err (.unsupportedBinOp op.display l.getType r.getType)

/-- Unary `!`. Source: `eval/mod.rs`, `eval_bang`. -/
def evalBang : Object → Res
  | .bool b => .ok (.bool (!b))
  | o => .err (.unsupportedPreOp "!" o.getType)

/-- Unary `-`. Source: `eval/mod.rs`, the minus case of the unary
evaluator (`eval_` + fix position + `_minus` in Rust). -/
def evalPreMinus : Object → Res
  | .int n => .ok (.int (-n))
  | o => .err (.unsupportedPreOp "-" o.getType)

/-- Unary `+` (identity on integers). Source: `eval/mod.rs`, the plus case
of the unary evaluator. -/
def evalPrePlus : Object → Res
  | .int n => .ok (.int n)
  | o => .err (.unsupportedPreOp "+" o.getType)

/-- Identifier evaluation. Source: `eval/mod.rs`, `eval_identifier`. -/
def evalIdentifier (name : String) (st : EvalSt) : Res × EvalSt :=
  match st.get name with
  | some o => (.ok o, st)
  | none => (.err (.identifierNotFound name), st)

/-- Bind parameters to evaluated-argument results in call order.  Source:
`eval/mod.rs`, the `for (id, value) in params.iter().zip(args)` loop of
`eval_call`: each `value?` propagates the first deferred argument error, and
each successful binding is an insert into the fresh scope's store. -/
def bindParams : List String → List (Except Err Object) → List (String × Object) →
    Except Err (List (String × Object))
  | [], _, acc => .ok acc
  | _ :: _, [], acc => .ok acc
  | p :: ps, r :: rs, acc =>
    match r with
    | .ok v => bindParams ps rs ((p, v) :: acc)
    | .error e => .error e

/-- Outcome of evaluating a call's argument list: per-argument results are
collected (`collect::<Vec<Result<_>>>` does not stop at an error), while a
panic or fuel exhaustion aborts the whole list. -/
inductive ArgsOut where
  | ok (rs : List (Except Err Object))
  | trap
  | fuelOut

mutual

/-- Expression evaluation. Source: `eval/mod.rs`, `eval_expr`.  A function
literal captures the current environment index (`self.env.clone()`). -/
def evalExpr : Nat → Expression → EvalSt → Res × EvalSt
  | 0, _, st => (.fuelOut, st)
  | fuel+1, e, st =>
    match e with
    | .lit l => (.ok (evalLiteral l), st)
    | .unary op right => evalUnary fuel op right st
    | .binary op left right => evalBinary fuel op left right st
    | .ifE c cons alt => evalIf fuel c cons alt st
    | .id name => evalIdentifier name st
    | .func ps body => (.ok (.function ps body st.cur), st)
    | .call f args => evalCall fuel f args st

/-- Unary operator evaluation. Source: `eval/mod.rs`, the unary-operator
evaluator (`eval_` + fix position in Rust): evaluate the operand, then
dispatch on the operator, propagating an operand error first. -/
def evalUnary : Nat → PreOp → Expression → EvalSt → Res × EvalSt
  | 0, _, _, st => (.fuelOut, st)
  | fuel+1, op, right, st =>
    match evalExpr fuel right st with
    | (.ok v, st') =>
      (match op with
       | .not => evalBang v
       | .minus => evalPreMinus v
       | .plus => evalPrePlus v, st')
    | other => other

/-- Binary operator evaluation. Source: `eval/mod.rs`, `eval_infix` minus
the factored-out `binDispatch`: evaluate left, then right, then dispatch. -/
def evalBinary : Nat → BinOp → Expression → Expression → EvalSt → Res × EvalSt
  | 0, _, _, _, st => (.fuelOut, st)
  | fuel+1, op, left, right, st =>
    match evalExpr fuel left st with
    | (.ok lv, st1) =>
      (match evalExpr fuel right st1 with
       | (.ok rv, st2) => (binDispatch op lv rv, st2)
       | other => other)
    | other => other

/-- Conditional evaluation. Source: `eval/mod.rs`, `eval_if`: evaluate the
condition once (an error propagates), then exactly one branch block. -/
def evalIf : Nat → Expression → List Statement → List Statement → EvalSt → Res × EvalSt
  | 0, _, _, _, st => (.fuelOut, st)
  | fuel+1, c, cons, alt, st =>
    match evalExpr fuel c st with
    | (.ok v, st1) =>
      if isTruthy v then evalBlockLoop fuel cons .null st1
      else evalBlockLoop fuel alt .null st1
    | other => other

/-- Statement evaluation. Source: `eval/mod.rs`, `eval_statement`:
`let` binds in the current environment and yields `Empty`; `return` wraps
its value in the `ReturnValue` sentinel. -/
def evalStatement : Nat → Statement → EvalSt → Res × EvalSt
  | 0, _, st => (.fuelOut, st)
  | fuel+1, .letS name value, st =>
    (match evalExpr fuel value st with
     | (.ok v, st') => (.ok Object.empty, st'.assign name v)
     | other => other)
  | fuel+1, .ret e, st =>
    (match evalExpr fuel e st with
     | (.ok v, st') => (.ok (.returnValue v), st')
     | other => other)
  | fuel+1, .expr e, st => evalExpr fuel e st

/-- Block evaluation loop. Source: `eval/mod.rs`, `eval_block_statement`
with the running `result` (initially `Null`) as an accumulator: a statement
error returns immediately, a `ReturnValue` returns immediately still
wrapped, otherwise the statement's value becomes the running result. -/
def evalBlockLoop : Nat → List Statement → Object → EvalSt → Res × EvalSt
  | 0, _, _, st => (.fuelOut, st)
  | _+1, [], result, st => (.ok result, st)
  | fuel+1, s :: rest, _, st =>
    match evalStatement fuel s st with
    | (.ok (.returnValue v), st') => (.ok (.returnValue v), st')
    | (.ok v, st') => evalBlockLoop fuel rest v st'
    | other => other

/-- Argument-list evaluation. Source: `eval/mod.rs`, the
`args.iter().map(|x| self.eval_expr(x.clone())).collect::<Vec<_>>()` of
`eval_call`: every argument is evaluated left to right and per-argument
errors are collected without stopping; a panic aborts. -/
def evalArgs : Nat → List Expression → EvalSt → ArgsOut × EvalSt
  | 0, _, st => (.fuelOut, st)
  | _+1, [], st => (.ok [], st)
  | fuel+1, a :: rest, st =>
    match evalExpr fuel a st with
    | (.ok v, st') =>
      (match evalArgs fuel rest st' with
       | (.ok rs, st'') => (.ok (.ok v :: rs), st'')
       | other => other)
    | (.err e, st') =>
      (match evalArgs fuel rest st' with
       | (.ok rs, st'') => (.ok (.error e :: rs), st'')
       | other => other)
    | (.trap, st') => (.trap, st')
    | (.fuelOut, st') => (.fuelOut, st')

/-- Call evaluation. Source: `eval/mod.rs`, `eval_call`, in the source's
order: evaluate all arguments first (errors deferred), then the callee
(its error propagates, a non-function value is an error), then check arity,
then bind parameters into a fresh scope whose outer link is the *captured*
environment (the first deferred argument error propagates here), evaluate
the body there, and restore the caller's environment afterwards whether the
body succeeded or errored (a panic unwinds without restoring). -/
def evalCall : Nat → Expression → List Expression → EvalSt → Res × EvalSt
  | 0, _, _, st => (.fuelOut, st)
  | fuel+1, f, args, st =>
    match evalArgs fuel args st with
    | (.trap, st1) => (.trap, st1)
    | (.fuelOut, st1) => (.fuelOut, st1)
    | (.ok rs, st1) =>
      match evalExpr fuel f st1 with
      | (.ok fv, st2) =>
        (match fv with
         | .function ps body envIdx =>
           if ps.length ≠ rs.length then
             (.err (.arityMismatch ps.length rs.length), st2)
           else
             match bindParams ps rs [] with
             | .error e => (.err e, st2)
             | .ok store =>
               let st3 : EvalSt := ⟨st2.envs ++ [⟨store, some envIdx⟩], st2.envs.length⟩
               match evalBlockLoop fuel body .null st3 with
               | (.ok v, st4) => (.ok v, ⟨st4.envs, st2.cur⟩)
               | (.err e, st4) => (.err e, ⟨st4.envs, st2.cur⟩)
               | (.trap, st4) => (.trap, st4)
               | (.fuelOut, st4) => (.fuelOut, st4)
         | _ => (.err (.notAFunction fv), st2))
      | other => other

end

/-- Program evaluation loop. Source: `eval/mod.rs`, `eval`, with the running
`result` (initially `Null`) as an accumulator: a parse-error element of the
program is returned as the evaluation's error immediately; a statement
error returns immediately; a statement yielding `ReturnValue` returns the
wrapped value unwrapped by exactly one layer. -/
def evalProgramLoop : Nat → List (Except String Statement) → Object → EvalSt → Res × EvalSt
  | 0, _, _, st => (.fuelOut, st)
  | _+1, [], result, st => (.ok result, st)
  | _+1, (.error msg) :: _, _, st => (.err (.parse msg), st)
  | fuel+1, (.ok s) :: rest, _, st =>
    match evalStatement fuel s st with
    | (.ok (.returnValue v), st') => (.ok v, st')
    | (.ok v, st') => evalProgramLoop fuel rest v st'
    | other => other

/-- Top-level evaluation entry point. Source: `eval/mod.rs`, `Eval::eval`. -/
def evalProgram (fuel : Nat) (prog : List (Except String Statement)) (st : EvalSt) :
    Res × EvalSt :=
  evalProgramLoop fuel prog .null st

/-! ### Parser embedding

The parser (`parser.rs`) pulls tokens one at a time from the lexer.  The
lexer is abstracted as the fixed sequence `s` of results its successive
`next_token()` calls produce: each pull consumes one element, and pulling
past the end yields `Ok(Eof)` forever (the real lexer is stable at end of
input).  The parser state is the pull position plus the two lookahead
registers `current_token` and `peek_token`. -/

/-- Token. Source: `lexer.rs`, `enum Token` (keyword tokens are suffixed
with `T` where the Rust name is a Lean keyword; `Return` is `ret`). -/
inductive Token where
  | illegal
  | eof
  | ident (name : String)
  | int (n : Int)
  | bool (b : Bool)
  | str (v : String)
  | assign
  | plus
  | minus
  | asterisk
  | slash
  | bang
  | lt
  | gt
  | equal
  | notEqual
  | comma
  | semicolon
  | lparen
  | rparen
  | lSquirly
  | rSquirly
  | function
  | letT
  | ifT
  | elseT
  | ret
deriving DecidableEq

/-- Parser state. Source: `parser.rs`, `struct Parser`: the lexer cursor is
the pull position `pos`, plus `current_token` and `peek_token`. -/
structure PSt where
  pos : Nat
  current : Token
  peek : Token
deriving DecidableEq

/-- Operator-precedence levels. Source: `ast.rs`, `enum Precedence` (the
level between `product` and `call` is named `pre` here). -/
inductive Precedence where
  | lowest
  | equals
  | lessGreater
  | sum
  | product
  | pre
  | call
deriving DecidableEq

/-- Numeric rank of a precedence level (the derived `PartialOrd` of the
Rust enum orders variants by declaration position). -/
def Precedence.toNat : Precedence → Nat
  | .lowest => 0
  | .equals => 1
  | .lessGreater => 2
  | .sum => 3
  | .product => 4
  | .pre => 5
  | .call => 6

/-- Strict precedence comparison, Rust's `precedence < get_precedence(..)`. -/
def precLt (a b : Precedence) : Bool := a.toNat < b.toNat

/-- Precedence of a token seen in operator position. Source: `parser.rs`,
`get_precedence`. -/
def get_precedence : Token → Precedence
  | .equal | .notEqual => .equals
  | .lt | .gt => .lessGreater
  | .plus | .minus => .sum
  | .slash | .asterisk => .product
  | .lparen => .call
  | _ => .lowest

/-- Binary-operator reading of a token. Source: `parser.rs`, the operator
match at the top of the binary-operator expression parser. -/
def binOpOfToken : Token → Option BinOp
  | .plus => some .plus
  | .minus => some .minus
  | .slash => some .divide
  | .asterisk => some .product
  | .equal => some .equal
  | .notEqual => some .notEqual
  | .lt => some .lessThan
  | .gt => some .greaterThan
  | _ => none

/-- Unary-operator reading of a token. Source: `parser.rs`, the operator
match at the top of the unary-operator expression parser (whose `_` arm is
`unreachable!()`; call sites only pass the three tokens below). -/
def preOpOfToken : Token → Option PreOp
  | .bang => some .not
  | .plus => some .plus
  | .minus => some .minus
  | _ => none

/-- Pull the next lexer result: consume one element of the fixed stream,
yielding `Ok(Eof)` past the end. -/
def pull (s : List (Except String Token)) (pos : Nat) : Except String Token × Nat :=
  match s.get? pos with
  | none => (.ok .eof, pos + 1)
  | some r => (r, pos + 1)

/-- Advance the lookahead window. Source: `parser.rs`, `Parser::next_token`:
`current_token = take(&mut peek_token)` always happens (leaving the
`Illegal` default in `peek_token`), then the lexer pull either fills
`peek_token` or propagates its error leaving the default in place. -/
def next_token (s : List (Except String Token)) (st : PSt) : Except String Unit × PSt :=
  match pull s st.pos with
  | (.ok t, p) => (.ok (), ⟨p, st.peek, t⟩)
  | (.error e, p) => (.error e, ⟨p, st.peek, .illegal⟩)

/-- Initial parser state. Source: `parser.rs`, `Parser::new`: default
(`Illegal`) registers, then two discarded-`Result` advances. -/
def initParser (s : List (Except String Token)) : PSt :=
  (next_token s (next_token s ⟨0, .illegal, .illegal⟩).2).2

/-- Read the current token as an identifier. Source: `parser.rs`,
`parse_ident` (consumes nothing). -/
def parse_ident (st : PSt) : Except String String :=
  match st.current with
  | .ident name => .ok name
  | _ => .error "Failed to parse identifier"

/-- Sequencing for parser results, mirroring Rust's `?`: fuel exhaustion
(`none`) and errors pass through, a success continues. -/
def pbind {α β : Type} (r : Option (Except String α × PSt))
    (f : α → PSt → Option (Except String β × PSt)) :
    Option (Except String β × PSt) :=
  match r with
  | none => none
  | some (.error e, st) => some (.error e, st)
  | some (.ok a, st) => f a st

/-- Assemble an `If` expression from its three deferred sub-results, firing
the deferred `?`s in source order (condition, consequence, alternative). -/
def ifFinish (cond : Except String Expression) (cons alt : Except String (List Statement))
    (st : PSt) : Option (Except String Expression × PSt) :=
  match cond with
  | .error e => some (.error e, st)
  | .ok c =>
    match cons with
    | .error e => some (.error e, st)
    | .ok cs =>
      match alt with
      | .error e => some (.error e, st)
      | .ok alts => some (.ok (.ifE c cs alts), st)

variable (s : List (Except String Token))

mutual

/-- Let-statement parser. Source: `parser.rs`, `parse_let_statement`. -/
def parse_let_statement : Nat → PSt → Option (Except String Statement × PSt)
  | 0, _ => none
  | fuel+1, st =>
    pbind (some (next_token s st)) fun _ st1 =>
    match st1.current with
    | .ident name =>
      pbind (some (next_token s st1)) fun _ st2 =>
      if st2.current ≠ .assign then
        some (.error "Missing assign token after identifier in let statement", st2)
      else
        pbind (some (next_token s st2)) fun _ st3 =>
        pbind (parse_expression fuel .lowest st3) fun v st4 =>
        some (.ok (.letS name v), st4)
    | _ => some (.error "Missing indentifier in let statement", st1)

/-- Return-statement parser. Source: `parser.rs`, `parse_return_statement`. -/
def parse_return_statement : Nat → PSt → Option (Except String Statement × PSt)
  | 0, _ => none
  | fuel+1, st =>
    pbind (some (next_token s st)) fun _ st1 =>
    pbind (parse_expression fuel .lowest st1) fun v st2 =>
    some (.ok (.ret v), st2)

/-- Block parser. Source: `parser.rs`, `parse_block_statement`: requires an
opening `{`, then the statement loop. -/
def parse_block_statement : Nat → PSt → Option (Except String (List Statement) × PSt)
  | 0, _ => none
  | fuel+1, st =>
    if st.current ≠ .lSquirly then some (.error "Failed to parse block statement!", st)
    else
      pbind (some (next_token s st)) fun _ st1 =>
      parse_block_loop fuel [] st1

/-- Block statement loop. Source: `parser.rs`, the `while` of
`parse_block_statement`: until `}` or `;`, parse a statement (its error
propagates through `?`) and advance. -/
def parse_block_loop : Nat → List Statement → PSt → Option (Except String (List Statement) × PSt)
  | 0, _, _ => none
  | fuel+1, acc, st =>
    if st.current = .rSquirly ∨ st.current = .semicolon then some (.ok acc, st)
    else
      pbind (parse_statement fuel st) fun stmt st1 =>
      pbind (some (next_token s st1)) fun _ st2 =>
      parse_block_loop fuel (acc ++ [stmt]) st2

/-- If-expression parser. Source: `parser.rs`, `parse_if_expr`: condition
and block results are deferred (`?` fires only at the end), while the
interleaved `next_token()?` calls propagate immediately; a missing `else`
yields the empty alternative block. -/
def parse_if_expr : Nat → PSt → Option (Except String Expression × PSt)
  | 0, _ => none
  | fuel+1, st =>
    match next_token s st with
    | (.error e, st1) => some (.error e, st1)
    | (.ok _, st1) =>
      match parse_expression fuel .lowest st1 with
      | none => none
      | some (cond, st2) =>
        match (if st2.current = .rparen then next_token s st2 else (.ok (), st2)) with
        | (.error e, st3) => some (.error e, st3)
        | (.ok _, st3) =>
          match parse_block_statement fuel st3 with
          | none => none
          | some (cons, st4) =>
            match next_token s st4 with
            | (.error e, st5) => some (.error e, st5)
            | (.ok _, st5) =>
              match st5.current with
              | .elseT =>
                (match next_token s st5 with
                 | (.error e, st6) => some (.error e, st6)
                 | (.ok _, st6) =>
                   match parse_block_statement fuel st6 with
                   | none => none
                   | some (alt, st7) => ifFinish cond cons alt st7)
              | _ => ifFinish cond cons (.ok []) st5

/-- Parameter-list loop. Source: `parser.rs`, `parse_function_parameters`:
identifiers until `)` with optional commas, then one advance past `)`. -/
def parse_function_parameters : Nat → List String → PSt → Option (Except String (List String) × PSt)
  | 0, _, _ => none
  | fuel+1, acc, st =>
    if st.current = .rparen then
      pbind (some (next_token s st)) fun _ st1 => some (.ok acc, st1)
    else
      match parse_ident st with
      | .error e => some (.error e, st)
      | .ok name =>
        pbind (some (next_token s st)) fun _ st1 =>
        if st1.current = .comma then
          pbind (some (next_token s st1)) fun _ st2 =>
          parse_function_parameters fuel (acc ++ [name]) st2
        else parse_function_parameters fuel (acc ++ [name]) st1

/-- Function-literal parser. Source: `parser.rs`, `parse_function_expr`. -/
def parse_function_expr : Nat → PSt → Option (Except String Expression × PSt)
  | 0, _ => none
  | fuel+1, st =>
    pbind (some (next_token s st)) fun _ st1 =>
    if st1.current ≠ .lparen then some (.error "Failed to parse function expression!", st1)
    else
      pbind (some (next_token s st1)) fun _ st2 =>
      pbind (parse_function_parameters fuel [] st2) fun params st3 =>
      if st3.current ≠ .lSquirly then some (.error "Failed to parse function body!", st3)
      else
        pbind (parse_block_statement fuel st3) fun body st4 =>
        some (.ok (.func params body), st4)

/-- Call-argument loop. Source: `parser.rs`, `parse_call_args`: expressions
until `)` with optional commas (no advance past `)`). -/
def parse_call_args : Nat → List Expression → PSt → Option (Except String (List Expression) × PSt)
  | 0, _, _ => none
  | fuel+1, acc, st =>
    if st.current = .rparen then some (.ok acc, st)
    else
      pbind (parse_expression fuel .lowest st) fun a st1 =>
      pbind (some (next_token s st1)) fun _ st2 =>
      if st2.current = .comma then
        pbind (some (next_token s st2)) fun _ st3 =>
        parse_call_args fuel (acc ++ [a]) st3
      else parse_call_args fuel (acc ++ [a]) st2

/-- Call-expression parser. Source: `parser.rs`, `parse_call_expr`. -/
def parse_call_expr : Nat → Expression → PSt → Option (Except String Expression × PSt)
  | 0, _, _ => none
  | fuel+1, f, st =>
    pbind (some (next_token s st)) fun _ st1 =>
    pbind (parse_call_args fuel [] st1) fun args st2 =>
    some (.ok (.call f args), st2)

/-- Pratt expression parser. Source: `parser.rs`, `parse_expression`: the
leading-position dispatch on `current_token` (an unhandled token returns
immediately), then the operator loop. -/
def parse_expression : Nat → Precedence → PSt → Option (Except String Expression × PSt)
  | 0, _, _ => none
  | fuel+1, prec, st =>
    match st.current with
    | .ident name => parse_op_loop fuel prec (.ok (.id name)) st
    | .int n => parse_op_loop fuel prec (.ok (.lit (.int n))) st
    | .bool b => parse_op_loop fuel prec (.ok (.lit (.bool b))) st
    | .lparen =>
      (match parse_grouped_expr fuel st with
       | none => none
       | some (r, st1) => parse_op_loop fuel prec r st1)
    | .plus | .bang | .minus =>
      (match parse_unary_expr fuel st with
       | none => none
       | some (r, st1) => parse_op_loop fuel prec r st1)
    | .ifT =>
      (match parse_if_expr fuel st with
       | none => none
       | some (r, st1) => parse_op_loop fuel prec r st1)
    | .function =>
      (match parse_function_expr fuel st with
       | none => none
       | some (r, st1) => parse_op_loop fuel prec r st1)
    | _ => some (.error "Expression type is unhandled yet!", st)

/-- Operator loop. Source: `parser.rs`, the `while` of `parse_expression`:
while `peek_token` is not `;` and binds tighter than the bound, dispatch an
operator (consuming one token *before* the deferred left error fires via
`expr?`), `(` being the call operator; any other tighter-binding token is
"Invalid expression!". -/
def parse_op_loop : Nat → Precedence → Except String Expression → PSt →
    Option (Except String Expression × PSt)
  | 0, _, _, _ => none
  | fuel+1, prec, r, st =>
    if st.peek ≠ .semicolon ∧ precLt prec (get_precedence st.peek) then
      match st.peek with
      | .plus | .minus | .slash | .asterisk | .equal | .notEqual | .lt | .gt =>
        (match next_token s st with
         | (.error e, st1) => some (.error e, st1)
         | (.ok _, st1) =>
           match r with
           | .error e => some (.error e, st1)
           | .ok left =>
             match parse_binary_expr fuel left st1 with
             | none => none
             | some (r', st2) => parse_op_loop fuel prec r' st2)
      | .lparen =>
        (match next_token s st with
         | (.error e, st1) => some (.error e, st1)
         | (.ok _, st1) =>
           match r with
           | .error e => some (.error e, st1)
           | .ok left =>
             match parse_call_expr fuel left st1 with
             | none => none
             | some (r', st2) => parse_op_loop fuel prec r' st2)
      | _ => some (.error "Invalid expression!", st)
    else some (r, st)

/-- Binary-operator expression parser. Source: `parser.rs`, the
infix-position expression parser: read the operator from `current_token`,
then parse the right operand at the operator's *own* precedence. -/
def parse_binary_expr : Nat → Expression → PSt → Option (Except String Expression × PSt)
  | 0, _, _ => none
  | fuel+1, left, st =>
    match binOpOfToken st.current with
    | none => some (.error "No valid infix operator", st)
    | some op =>
      pbind (some (next_token s st)) fun _ st1 =>
      pbind (parse_expression fuel (get_precedence st.current) st1) fun right st2 =>
      some (.ok (.binary op left right), st2)

/-- Unary-operator expression parser. Source: `parser.rs`, the
prefix-position expression parser: read the operator from `current_token`
(its `_` arm is `unreachable!()`), then parse the operand at the
second-highest precedence level. -/
def parse_unary_expr : Nat → PSt → Option (Except String Expression × PSt)
  | 0, _ => none
  | fuel+1, st =>
    match preOpOfToken st.current with
    | none => some (.error "unreachable", st)
    | some op =>
      pbind (some (next_token s st)) fun _ st1 =>
      pbind (parse_expression fuel .pre st1) fun right st2 =>
      some (.ok (.unary op right), st2)

/-- Grouped-expression parser. Source: `parser.rs`, `parse_grouped_expr`:
the inner result is deferred; a missing `)` (checked against `peek_token`)
errors first, then one advance, then the deferred inner result. -/
def parse_grouped_expr : Nat → PSt → Option (Except String Expression × PSt)
  | 0, _ => none
  | fuel+1, st =>
    match next_token s st with
    | (.error e, st1) => some (.error e, st1)
    | (.ok _, st1) =>
      match parse_expression fuel .lowest st1 with
      | none => none
      | some (r, st2) =>
        if st2.peek ≠ .rparen then some (.error "Failed to parse grouped expression!", st2)
        else
          match next_token s st2 with
          | (.error e, st3) => some (.error e, st3)
          | (.ok _, st3) => some (r, st3)

/-- Statement parser. Source: `parser.rs`, `parse_statement`: dispatch on
`current_token`, then (whatever the statement result) advance past an
optional trailing `;` or an `Eof`, that advance's error replacing the
statement result. -/
def parse_statement : Nat → PSt → Option (Except String Statement × PSt)
  | 0, _ => none
  | fuel+1, st =>
    match (match st.current with
           | .letT => parse_let_statement fuel st
           | .ret => parse_return_statement fuel st
           | _ =>
             match parse_expression fuel .lowest st with
             | none => none
             | some (r, st1) => some (r.map .expr, st1)) with
    | none => none
    | some (r, st1) =>
      if st1.peek = .semicolon ∨ st1.peek = .eof then
        match next_token s st1 with
        | (.error e, st2) => some (.error e, st2)
        | (.ok _, st2) => some (r, st2)
      else some (r, st1)

end

/-- Program loop. Source: `parser.rs`, the `while` of `parse_program`:
until `current_token` is `Eof`, push the statement result (success or
error) and advance — the advance's lexer error, alone, propagates out of
`parse_program` itself. -/
def parse_program_loop : Nat → List (Except String Statement) → PSt →
    Option (Except String (List (Except String Statement)) × PSt)
  | 0, _, _ => none
  | fuel+1, acc, st =>
    if st.current = .eof then some (.ok acc, st)
    else
      match parse_statement s fuel st with
      | none => none
      | some (r, st1) =>
        match next_token s st1 with
        | (.error e, st2) => some (.error e, st2)
        | (.ok _, st2) => parse_program_loop fuel (acc ++ [r]) st2

/-- Program parser entry point. Source: `parser.rs`, `parse_program`. -/
def parse_program (fuel : Nat) (st : PSt) :
    Option (Except String (List (Except String Statement)) × PSt) :=
  match fuel with
  | 0 => none
  | fuel+1 => parse_program_loop s fuel [] st

/-! ### Auxiliary definitions and concrete inputs used by the theorems -/

/-- Shape test: is the value an `Int`? -/
def Object.isInt : Object → Bool
  | .int _ => true
  | _ => false

/-- Shape test: is the value a `Bool`? -/
def Object.isBool : Object → Bool
  | .bool _ => true
  | _ => false

/-- Shape test: is the value a `String`? -/
def Object.isStr : Object → Bool
  | .str _ => true
  | _ => false

/-- Outcome test: does the result abort evaluation altogether (Rust panic,
or the model's fuel exhaustion), as opposed to `Ok`/`Err`? -/
def Res.isAbort : Res → Bool
  | .trap => true
  | .fuelOut => true
  | _ => false

/-- Success test for a parser-level `Result`. -/
def isOkResult {α : Type} : Except String α → Bool
  | .ok _ => true
  | .error _ => false

/-- Abort test for an argument-list outcome (Rust panic or fuel). -/
def ArgsOut.isAbort : ArgsOut → Bool
  | .trap => true
  | .fuelOut => true
  | _ => false

/-- Frame-locality contract of one evaluator step with respect to an abort
test on its outcome type: unless the step aborted, the current-environment
index is unchanged; the arena only grows; and every pre-existing frame
other than the current one is untouched. -/
def stepOkG {α : Type} (abort : α → Bool) (st : EvalSt) (out : α × EvalSt) : Prop :=
  (abort out.1 = false → out.2.cur = st.cur) ∧
  st.envs.length ≤ out.2.envs.length ∧
  (∀ i, i < st.envs.length → i ≠ st.cur → out.2.envs[i]? = st.envs[i]?)

/-- Frame-locality contract for a `Res`-valued evaluator step. -/
def stepOk : EvalSt → Res × EvalSt → Prop := stepOkG Res.isAbort

/-- Frame-locality contract for an argument-list evaluation step. -/
def stepOkA : EvalSt → ArgsOut × EvalSt → Prop := stepOkG ArgsOut.isAbort

/-- Store produced by binding parameters to already-unwrapped argument
values in order (the error-free denotation of `bindParams`). -/
def bindStore : List String → List Object → List (String × Object) → List (String × Object)
  | [], _, acc => acc
  | _ :: _, [], acc => acc
  | p :: ps, v :: vs, acc => bindStore ps vs ((p, v) :: acc)

/-- Full pipeline on a token stream: parse, then (when the parser finishes
and succeeds) evaluate the resulting program from a fresh state. -/
def runToks (pf ef : Nat) (s : List (Except String Token)) : Option Res :=
  match parse_program s pf (initParser s) with
  | some (.ok prog, _) => some (evalProgram ef prog initSt).1
  | _ => none

/-- Program `let newAdder = fn(x) { fn(y) { x + y } }; let addTwo = newAdder(2); addTwo(2);`. -/
def closureProgram : List (Except String Statement) :=
  [.ok (.letS "newAdder" (.func ["x"] [.expr (.func ["y"] [.expr (.binary .plus (.id "x") (.id "y"))])])),
   .ok (.letS "addTwo" (.call (.id "newAdder") [.lit (.int 2)])),
   .ok (.expr (.call (.id "addTwo") [.lit (.int 2)]))]

/-- Program `let f = fn() { return 1; }; return f();`. -/
def returnEscapeProgram : List (Except String Statement) :=
  [.ok (.letS "f" (.func [] [.ret (.lit (.int 1))])),
   .ok (.ret (.call (.id "f") []))]

/-- Program `let f = fn() { return 1; }; f(); 9;`. -/
def returnSkipProgram : List (Except String Statement) :=
  [.ok (.letS "f" (.func [] [.ret (.lit (.int 1))])),
   .ok (.expr (.call (.id "f") [])),
   .ok (.expr (.lit (.int 9)))]

/-- Program `5 / 0;`. -/
def divByZeroProgram : List (Except String Statement) :=
  [.ok (.expr (.binary .divide (.lit (.int 5)) (.lit (.int 0))))]

/-- Program `let f = fn(x, y) { x; }; f(nope);` — a call with wrong arity
whose single argument also fails to evaluate. -/
def arityVsArgErrProgram : List (Except String Statement) :=
  [.ok (.letS "f" (.func ["x", "y"] [.expr (.id "x")])),
   .ok (.expr (.call (.id "f") [.id "nope"]))]

/-- Program `(if (true) { gg } else { gg })(if (true) { let gg = fn(x) { 7 }; 1 } else { 1 });`
— the callee expression only resolves if the argument expression was
evaluated (and its `let` executed) first. -/
def argsBeforeCalleeProgram : List (Except String Statement) :=
  [.ok (.expr (.call
    (.ifE (.lit (.bool true)) [.expr (.id "gg")] [.expr (.id "gg")])
    [.ifE (.lit (.bool true))
      [.letS "gg" (.func ["x"] [.expr (.lit (.int 7))]), .expr (.lit (.int 1))]
      [.expr (.lit (.int 1))]]))]

/-- Program `5 + true;`. -/
def intPlusBoolProgram : List (Except String Statement) :=
  [.ok (.expr (.binary .plus (.lit (.int 5)) (.lit (.bool true))))]

/-- Program whose middle element is a parse error:
`let a = 5;` then a parse-error element, then `let b = 6;`. -/
def letThenErrProgram : List (Except String Statement) :=
  [.ok (.letS "a" (.lit (.int 5))),
   .error "bad statement",
   .ok (.letS "b" (.lit (.int 6)))]

/-- Token stream of a lexer that yields `5` and then keeps failing on an
illegal character (the real lexer does not advance past the bad byte, so
the error repeats on every pull). -/
def lexErrStream : List (Except String Token) :=
  [.ok (.int 5), .error "illegal character", .error "illegal character"]

/-- Error-free token stream of `let 5; 7` — the first statement is
malformed (no identifier after `let`), the second is fine. -/
def recovStream : List (Except String Token) :=
  [Token.letT, .int 5, .semicolon, .int 7].map Except.ok

/-- Tokens of `5 + 5 + 5 + 5 - 10`. -/
def arithTokens1 : List Token :=
  [.int 5, .plus, .int 5, .plus, .int 5, .plus, .int 5, .minus, .int 10]

/-- Tokens of `2 * (5 + 10)`. -/
def arithTokens2 : List Token :=
  [.int 2, .asterisk, .lparen, .int 5, .plus, .int 10, .rparen]

/-- Tokens of `3 * (3 * 3) + 10`. -/
def arithTokens3 : List Token :=
  [.int 3, .asterisk, .lparen, .int 3, .asterisk, .int 3, .rparen, .plus, .int 10]

/-! ### Reference arithmetic grammar (C4) -/

/-- Tokens of the arithmetic fragment: integer literals, the four
arithmetic operators and parentheses. Modelled from the spec: the claim's
domain "built only from the operators + - * / and parentheses over integer
literals". -/
def isArithTok : Token → Bool
  | .int _ => true
  | .plus => true
  | .minus => true
  | .asterisk => true
  | .slash => true
  | .lparen => true
  | .rparen => true
  | _ => false

mutual

/-- Atom of the reference grammar: an integer literal or a parenthesised
expression. Modelled from the spec: standard precedence-respecting
arithmetic, highest level. -/
def refAtom : Nat → List Token → Option (Int × List Token)
  | 0, _ => none
  | _+1, Token.int n :: rest => some (n, rest)
  | fuel+1, Token.lparen :: rest =>
    (match refE fuel rest with
     | some (v, Token.rparen :: rest') => some (v, rest')
     | _ => none)
  | _+1, _ => none

/-- Term loop of the reference grammar: fold `* /` left-associatively over
atoms, accumulating the value; division by zero is undefined (`none`).
Modelled from the spec: standard left-associative arithmetic at the
multiplicative level, with `/` integer (truncating) division. -/
def refTLoop : Nat → Int → List Token → Option (Int × List Token)
  | 0, _, _ => none
  | fuel+1, acc, Token.asterisk :: rest =>
    (match refAtom fuel rest with
     | some (v, rest') => refTLoop fuel (acc * v) rest'
     | none => none)
  | fuel+1, acc, Token.slash :: rest =>
    (match refAtom fuel rest with
     | some (v, rest') => if v = 0 then none else refTLoop fuel (Int.tdiv acc v) rest'
     | none => none)
  | _+1, acc, rest => some (acc, rest)

/-- Term of the reference grammar: an atom followed by the `* /` loop.
Modelled from the spec. -/
def refT : Nat → List Token → Option (Int × List Token)
  | 0, _ => none
  | fuel+1, l =>
    (match refAtom fuel l with
     | some (v, rest) => refTLoop fuel v rest
     | none => none)

/-- Expression loop of the reference grammar: fold `+ -` left-associatively
over terms. Modelled from the spec: standard left-associative arithmetic at
the additive level. -/
def refELoop : Nat → Int → List Token → Option (Int × List Token)
  | 0, _, _ => none
  | fuel+1, acc, Token.plus :: rest =>
    (match refT fuel rest with
     | some (v, rest') => refELoop fuel (acc + v) rest'
     | none => none)
  | fuel+1, acc, Token.minus :: rest =>
    (match refT fuel rest with
     | some (v, rest') => refELoop fuel (acc - v) rest'
     | none => none)
  | _+1, acc, rest => some (acc, rest)

/-- Expression of the reference grammar: a term followed by the `+ -` loop.
`refE fuel toks = some (v, rest)` means the longest arithmetic expression at
the front of `toks` has standard left-associative, precedence-respecting
value `v`, leaving `rest`. Modelled from the spec. -/
def refE : Nat → List Token → Option (Int × List Token)
  | 0, _ => none
  | fuel+1, l =>
    (match refT fuel l with
     | some (v, rest) => refELoop fuel v rest
     | none => none)

end

/-- Standard arithmetic value of a parsed expression tree restricted to the
arithmetic fragment (`none` on division by zero or any non-arithmetic
node). Modelled from the spec: "standard ... integer arithmetic" read off
the AST. -/
def treevalA : Expression → Option Int
  | .lit (.int n) => some n
  | .binary .plus l r =>
    (match treevalA l, treevalA r with
     | some a, some b => some (a + b)
     | _, _ => none)
  | .binary .minus l r =>
    (match treevalA l, treevalA r with
     | some a, some b => some (a - b)
     | _, _ => none)
  | .binary .product l r =>
    (match treevalA l, treevalA r with
     | some a, some b => some (a * b)
     | _, _ => none)
  | .binary .divide l r =>
    (match treevalA l, treevalA r with
     | some a, some b => if b = 0 then none else some (Int.tdiv a b)
     | _, _ => none)
  | _ => none

/-- Evaluator fuel sufficient for an arithmetic expression tree. -/
def arithFuel : Expression → Nat
  | .binary _ l r => max (arithFuel l) (arithFuel r) + 2
  | _ => 1

/-- The parser state `st` sits on the token list `l` inside the stream
`toks`: `current` is the head of `l`, `peek` the second element, and the
stream cursor has consumed everything up to the third. -/
def Aligned (toks : List Token) (st : PSt) (l : List Token) : Prop :=
  st.current = l.headD .eof ∧ st.peek = (l.drop 1).headD .eof ∧
  List.drop st.pos toks = l.drop 2

/-- The parser state `st` has just finished the input before `l`: `peek` is
the head of `l` and the stream cursor has consumed everything up to its
second element (`current` is the last consumed token). -/
def AlignedEnd (toks : List Token) (st : PSt) (l : List Token) : Prop :=
  st.peek = l.headD .eof ∧ List.drop st.pos toks = l.drop 1

/-- Equivalence statement for atoms at reference fuel `k`: a successful
`refAtom` run is matched by `parse_expression`, which after dispatching on
the leading token reaches its operator loop with an expression whose
standard value is the reference value, at any sufficiently large parser
fuel. -/
def EqAtom (toks : List Token) (k : Nat) : Prop :=
  ∀ l a rest' st, refAtom k l = some (a, rest') →
    (∀ t ∈ l, isArithTok t = true) → Aligned toks st l →
    ∃ e0 st0 pf0, treevalA e0 = some a ∧ AlignedEnd toks st0 rest' ∧
      ∀ pf, pf0 ≤ pf → ∀ prec,
        parse_expression (toks.map Except.ok) (pf + 1) prec st =
          parse_op_loop (toks.map Except.ok) pf prec (.ok e0) st0

/-- Equivalence statement for atoms parsed at `product` precedence, where
the operator loop stops immediately (the leftover cannot begin with `(`). -/
def EqAtomP (toks : List Token) (k : Nat) : Prop :=
  ∀ l a l' st, refAtom k l = some (a, l') → l'.headD .eof ≠ .lparen →
    (∀ t ∈ l, isArithTok t = true) → Aligned toks st l →
    ∃ e st' pf0, treevalA e = some a ∧ AlignedEnd toks st' l' ∧
      ∀ pf, pf0 ≤ pf →
        parse_expression (toks.map Except.ok) pf .product st = some (.ok e, st')

/-- Equivalence statement for terms parsed at `sum` precedence. -/
def EqT (toks : List Token) (k : Nat) : Prop :=
  ∀ l v l' st, refT k l = some (v, l') → l'.headD .eof ≠ .lparen →
    (∀ t ∈ l, isArithTok t = true) → Aligned toks st l →
    ∃ e st' pf0, treevalA e = some v ∧ AlignedEnd toks st' l' ∧
      ∀ pf, pf0 ≤ pf →
        parse_expression (toks.map Except.ok) pf .sum st = some (.ok e, st')

/-- Equivalence statement for the `* /` loop against the parser's operator
loop at `sum` precedence. -/
def EqTLoopSum (toks : List Token) (k : Nat) : Prop :=
  ∀ t0 m v l', refTLoop k t0 m = some (v, l') → l'.headD .eof ≠ .lparen →
    (∀ t ∈ m, isArithTok t = true) →
    ∀ e0 st0, treevalA e0 = some t0 → AlignedEnd toks st0 m →
    ∃ e st' pf0, treevalA e = some v ∧ AlignedEnd toks st' l' ∧
      ∀ pf, pf0 ≤ pf →
        parse_op_loop (toks.map Except.ok) pf .sum (.ok e0) st0 = some (.ok e, st')

/-- Equivalence statement for the `+ -` loop against the parser's operator
loop at `lowest` precedence. -/
def EqELoop (toks : List Token) (k : Nat) : Prop :=
  ∀ t1 m1 v l', refELoop k t1 m1 = some (v, l') → l'.headD .eof ≠ .lparen →
    m1.headD .eof ≠ .asterisk → m1.headD .eof ≠ .slash →
    (∀ t ∈ m1, isArithTok t = true) →
    ∀ e0 st0, treevalA e0 = some t1 → AlignedEnd toks st0 m1 →
    ∃ e st' pf0, treevalA e = some v ∧ AlignedEnd toks st' l' ∧
      ∀ pf, pf0 ≤ pf →
        parse_op_loop (toks.map Except.ok) pf .lowest (.ok e0) st0 = some (.ok e, st')

/-- Equivalence statement for the `* /` loop run inside the parser's
operator loop at `lowest` precedence: the loop is reduced, with some fuel
consumed, to the state after the multiplicative run, without stopping. -/
def EqTLoopLow (toks : List Token) (k : Nat) : Prop :=
  ∀ t0 m t1 m1, refTLoop k t0 m = some (t1, m1) → m1.headD .eof ≠ .lparen →
    (∀ t ∈ m, isArithTok t = true) →
    ∀ e0 st0, treevalA e0 = some t0 → AlignedEnd toks st0 m →
    ∃ e1 st1 steps pf0, treevalA e1 = some t1 ∧ AlignedEnd toks st1 m1 ∧
      ∀ pf, pf0 ≤ pf →
        parse_op_loop (toks.map Except.ok) pf .lowest (.ok e0) st0 =
          parse_op_loop (toks.map Except.ok) (pf - steps) .lowest (.ok e1) st1

/-- Equivalence statement for full arithmetic expressions parsed at
`lowest` precedence. -/
def EqE (toks : List Token) (n : Nat) : Prop :=
  ∀ l v l' st, refE n l = some (v, l') → l'.headD .eof ≠ .lparen →
    (∀ t ∈ l, isArithTok t = true) → Aligned toks st l →
    ∃ e st' pf0, treevalA e = some v ∧ AlignedEnd toks st' l' ∧
      ∀ pf, pf0 ≤ pf →
        parse_expression (toks.map Except.ok) pf .lowest st = some (.ok e, st')

/-! ### Helper lemmas -/

/-- Binding parameters to error-free argument results always succeeds and
produces the store described by `bindStore`. -/
theorem bindParams_ok : ∀ (ps : List String) (vs : List Object) (acc : List (String × Object)),
    bindParams ps (vs.map Except.ok) acc = .ok (bindStore ps vs acc) := by
  intro ps
  induction ps with
  | nil => intro vs acc; simp [bindParams, bindStore]
  | cons p ps ih =>
    intro vs acc
    cases vs with
    | nil => simp [bindParams, bindStore]
    | cons v vs => simp [bindParams, bindStore, ih]

/-- Binding propagates the first deferred argument error as soon as the
parameter list reaches it. -/
theorem bindParams_first_err : ∀ (good : List Object) (ps : List String) (e : Err)
    (bad : List (Except Err Object)) (acc : List (String × Object)),
    good.length < ps.length →
    bindParams ps (good.map Except.ok ++ .error e :: bad) acc = .error e := by
  intro good
  induction good with
  | nil =>
    intro ps e bad acc h
    cases ps with
    | nil => simp at h
    | cons p ps => simp [bindParams]
  | cons g good ih =>
    intro ps e bad acc h
    cases ps with
    | nil => simp at h
    | cons p ps =>
      simp only [List.map_cons, List.cons_append, bindParams]
      exact ih ps e bad _ (by simpa using h)

/-- Reflexivity of the locality contract: a step returning the input state
satisfies it whatever its outcome. -/
theorem stepOkG_refl {α : Type} (abort : α → Bool) (st : EvalSt) (r : α) :
    stepOkG abort st (r, st) :=
  ⟨fun _ => rfl, le_refl _, fun _ _ _ => rfl⟩

/-- Weakening of the locality contract: the outcome value may be replaced
by any value that aborts whenever the original did not not-abort. -/
theorem stepOkG_weaken {α β : Type} {ab1 : α → Bool} {ab2 : β → Bool} {st st' : EvalSt}
    {r1 : α} {r2 : β} (h : stepOkG ab1 st (r1, st'))
    (himp : ab2 r2 = false → ab1 r1 = false) :
    stepOkG ab2 st (r2, st') :=
  ⟨fun h2 => h.1 (himp h2), h.2.1, h.2.2⟩

/-- Transitivity of the locality contract across a non-aborting first step. -/
theorem stepOkG_comp {α β : Type} {ab1 : α → Bool} {ab2 : β → Bool} {st st1 : EvalSt}
    {r1 : α} {out : β × EvalSt} (h1 : stepOkG ab1 st (r1, st1)) (hr1 : ab1 r1 = false)
    (h2 : stepOkG ab2 st1 out) : stepOkG ab2 st out := by
  obtain ⟨c1, l1, f1⟩ := h1
  obtain ⟨c2, l2, f2⟩ := h2
  have hc : st1.cur = st.cur := c1 hr1
  refine ⟨fun h => by rw [c2 h, hc], le_trans l1 l2, fun i hi hne => ?_⟩
  rw [f2 i (lt_of_lt_of_le hi l1) (by rw [hc]; exact hne), f1 i hi hne]

/-- Binding in the current environment preserves the current index, the
arena's length, and every other frame. -/
theorem assign_stepOk (st : EvalSt) (name : String) (v : Object) :
    (st.assign name v).cur = st.cur ∧
    (st.assign name v).envs.length = st.envs.length ∧
    (∀ i, i ≠ st.cur → (st.assign name v).envs[i]? = st.envs[i]?) := by
  unfold EvalSt.assign
  cases hg : st.envs.get? st.cur with
  | none => exact ⟨rfl, rfl, fun _ _ => rfl⟩
  | some e =>
    refine ⟨rfl, by simp, fun i hne => ?_⟩
    simp [List.getElem?_set_ne (fun h => hne h.symm)]

/-- Frame locality of the whole evaluator, proved for all eight mutually
recursive functions at once by induction on fuel: unless a step aborts
(panic or fuel), it leaves the current-environment index unchanged; the
arena only grows; and every pre-existing frame other than the current one
is untouched (a call's body writes only to its fresh child environment and
to environments created after it). -/
theorem evalMaster : ∀ fuel : Nat,
    (∀ e st, stepOk st (evalExpr fuel e st)) ∧
    (∀ op r st, stepOk st (evalUnary fuel op r st)) ∧
    (∀ op l r st, stepOk st (evalBinary fuel op l r st)) ∧
    (∀ c cs alt st, stepOk st (evalIf fuel c cs alt st)) ∧
    (∀ stmt st, stepOk st (evalStatement fuel stmt st)) ∧
    (∀ stmts acc st, stepOk st (evalBlockLoop fuel stmts acc st)) ∧
    (∀ args st, stepOkA st (evalArgs fuel args st)) ∧
    (∀ f args st, stepOk st (evalCall fuel f args st)) := by
  intro fuel
  induction fuel with
  | zero =>
    refine ⟨fun e st => ?_, fun op r st => ?_, fun op l r st => ?_,
      fun c cs alt st => ?_, fun stmt st => ?_, fun stmts acc st => ?_,
      fun args st => ?_, fun f args st => ?_⟩ <;>
      exact stepOkG_refl _ _ _
  | succ fuel ih =>
    obtain ⟨ihE, ihU, ihB, ihI, ihS, ihL, ihA, ihC⟩ := ih
    refine ⟨?_, ?_, ?_, ?_, ?_, ?_, ?_, ?_⟩
    -- evalExpr
    · intro e st
      cases e with
      | lit l => exact stepOkG_refl _ _ _
      | unary op right => exact ihU op right st
      | binary op left right => exact ihB op left right st
      | ifE c cs alt => exact ihI c cs alt st
      | id name =>
        rw [evalExpr]
        unfold evalIdentifier
        cases st.get name with
        | none => exact stepOkG_refl _ _ _
        | some o => exact stepOkG_refl _ _ _
      | func ps body => exact stepOkG_refl _ _ _
      | call f args => exact ihC f args st
    -- evalUnary
    · intro op right st
      rcases hre : evalExpr fuel right st with ⟨r, st'⟩
      have hstep := ihE right st
      rw [hre] at hstep
      rw [evalUnary, hre]
      cases r with
      | ok v => exact stepOkG_weaken hstep (fun _ => rfl)
      | err e => exact hstep
      | trap => exact hstep
      | fuelOut => exact hstep
    -- evalBinary
    · intro op left right st
      rcases hl : evalExpr fuel left st with ⟨rl, st1⟩
      have hstepl := ihE left st
      rw [hl] at hstepl
      rw [evalBinary, hl]
      cases rl with
      | ok lv =>
        dsimp only
        rcases hr : evalExpr fuel right st1 with ⟨rr, st2⟩
        have hstepr := ihE right st1
        rw [hr] at hstepr
        cases rr with
        | ok rv =>
          exact stepOkG_comp hstepl rfl (stepOkG_weaken hstepr (fun _ => rfl))
        | err e => exact stepOkG_comp hstepl rfl hstepr
        | trap => exact stepOkG_comp hstepl rfl hstepr
        | fuelOut => exact stepOkG_comp hstepl rfl hstepr
      | err e => exact hstepl
      | trap => exact hstepl
      | fuelOut => exact hstepl
    -- evalIf
    · intro c cs alt st
      rcases hc : evalExpr fuel c st with ⟨rc, st1⟩
      have hstepc := ihE c st
      rw [hc] at hstepc
      rw [evalIf, hc]
      cases rc with
      | ok v =>
        dsimp only
        by_cases ht : isTruthy v = true
        · rw [if_pos ht]
          exact stepOkG_comp hstepc rfl (ihL cs .null st1)
        · rw [if_neg ht]
          exact stepOkG_comp hstepc rfl (ihL alt .null st1)
      | err e => exact hstepc
      | trap => exact hstepc
      | fuelOut => exact hstepc
    -- evalStatement
    · intro stmt st
      cases stmt with
      | letS name value =>
        rcases hv : evalExpr fuel value st with ⟨rv, st'⟩
        have hstep := ihE value st
        rw [hv] at hstep
        rw [evalStatement, hv]
        cases rv with
        | ok v =>
          obtain ⟨ac, al, af⟩ := assign_stepOk st' name v
          obtain ⟨c1, l1, f1⟩ := hstep
          refine ⟨fun _ => ?_, ?_, fun i hi hne => ?_⟩
          · show (EvalSt.assign st' name v).cur = st.cur
            rw [ac]
            exact c1 rfl
          · show st.envs.length ≤ (EvalSt.assign st' name v).envs.length
            rw [al]
            exact l1
          · show (EvalSt.assign st' name v).envs[i]? = st.envs[i]?
            rw [af i (by rw [c1 rfl]; exact hne), f1 i hi hne]
        | err e => exact hstep
        | trap => exact hstep
        | fuelOut => exact hstep
      | ret e =>
        rcases hv : evalExpr fuel e st with ⟨rv, st'⟩
        have hstep := ihE e st
        rw [hv] at hstep
        rw [evalStatement, hv]
        cases rv with
        | ok v => exact stepOkG_weaken hstep (fun _ => rfl)
        | err er => exact hstep
        | trap => exact hstep
        | fuelOut => exact hstep
      | expr e =>
        rw [evalStatement]
        exact ihE e st
    -- evalBlockLoop
    · intro stmts acc st
      cases stmts with
      | nil => exact stepOkG_refl _ _ _
      | cons stm rest =>
        rcases hs : evalStatement fuel stm st with ⟨rs, st'⟩
        have hstep := ihS stm st
        rw [hs] at hstep
        rw [evalBlockLoop, hs]
        cases rs with
        | ok v =>
          cases v <;>
            first
            | exact hstep
            | exact stepOkG_comp hstep rfl (ihL rest _ st')
        | err e => exact hstep
        | trap => exact hstep
        | fuelOut => exact hstep
    -- evalArgs
    · intro args st
      cases args with
      | nil => exact stepOkG_refl _ _ _
      | cons a rest =>
        rcases ha : evalExpr fuel a st with ⟨ra, st'⟩
        have hstep := ihE a st
        rw [ha] at hstep
        rw [evalArgs, ha]
        cases ra with
        | ok v =>
          dsimp only
          rcases hr : evalArgs fuel rest st' with ⟨rr, st''⟩
          have hrest := ihA rest st'
          rw [hr] at hrest
          cases rr with
          | ok rs => exact stepOkG_comp hstep rfl (stepOkG_weaken hrest (fun _ => rfl))
          | trap => exact stepOkG_comp hstep rfl hrest
          | fuelOut => exact stepOkG_comp hstep rfl hrest
        | err e =>
          dsimp only
          rcases hr : evalArgs fuel rest st' with ⟨rr, st''⟩
          have hrest := ihA rest st'
          rw [hr] at hrest
          cases rr with
          | ok rs => exact stepOkG_comp hstep rfl (stepOkG_weaken hrest (fun _ => rfl))
          | trap => exact stepOkG_comp hstep rfl hrest
          | fuelOut => exact stepOkG_comp hstep rfl hrest
        | trap => exact stepOkG_weaken hstep (fun h => by simp [ArgsOut.isAbort] at h)
        | fuelOut => exact stepOkG_weaken hstep (fun h => by simp [ArgsOut.isAbort] at h)
    -- evalCall
    · intro f args st
      rcases hargs : evalArgs fuel args st with ⟨ra, st1⟩
      have hstepA := ihA args st
      rw [hargs] at hstepA
      rw [evalCall, hargs]
      cases ra with
      | trap => exact stepOkG_weaken hstepA (fun h => by simp [Res.isAbort] at h)
      | fuelOut => exact stepOkG_weaken hstepA (fun h => by simp [Res.isAbort] at h)
      | ok rs =>
        dsimp only
        rcases hf : evalExpr fuel f st1 with ⟨rf, st2⟩
        have hstepF := ihE f st1
        rw [hf] at hstepF
        cases rf with
        | err e => exact stepOkG_comp hstepA rfl hstepF
        | trap => exact stepOkG_comp hstepA rfl hstepF
        | fuelOut => exact stepOkG_comp hstepA rfl hstepF
        | ok fv =>
          have hAF : stepOk st (Res.ok fv, st2) := stepOkG_comp hstepA rfl hstepF
          cases fv with
          | function ps body envIdx =>
            dsimp only
            by_cases hlen : ps.length ≠ rs.length
            · rw [if_pos hlen]
              exact stepOkG_weaken hAF (fun _ => rfl)
            · rw [if_neg hlen]
              cases hbp : bindParams ps rs [] with
              | error e =>
                exact stepOkG_weaken hAF (fun _ => rfl)
              | ok store =>
                dsimp only
                rcases hb : evalBlockLoop fuel body .null
                    ⟨st2.envs ++ [⟨store, some envIdx⟩], st2.envs.length⟩ with ⟨rb, st4⟩
                have hstepB := ihL body Object.null
                    ⟨st2.envs ++ [⟨store, some envIdx⟩], st2.envs.length⟩
                rw [hb] at hstepB
                rw [hb]
                obtain ⟨cA, lA, fA⟩ := hAF
                obtain ⟨cB, lB, fB⟩ := hstepB
                have hlen2 : st.envs.length ≤ st2.envs.length := lA
                have hlB' : st2.envs.length + 1 ≤ st4.envs.length := by
                  simpa using lB
                have hframe : ∀ i, i < st.envs.length → i ≠ st.cur →
                    st4.envs[i]? = st.envs[i]? := by
                  intro i hi hne
                  have hi2 : i < st2.envs.length := lt_of_lt_of_le hi hlen2
                  have h3 : st4.envs[i]? =
                      (st2.envs ++ [(⟨store, some envIdx⟩ : Env)])[i]? := by
                    refine fB i ?_ ?_
                    · show i < (st2.envs ++ [(⟨store, some envIdx⟩ : Env)]).length
                      simp
                      omega
                    · show i ≠ st2.envs.length
                      omega
                  rw [h3, List.getElem?_append_left hi2, fA i hi hne]
                cases rb with
                | ok v =>
                  refine ⟨fun _ => cA rfl, ?_, hframe⟩
                  show st.envs.length ≤ st4.envs.length
                  omega
                | err e =>
                  refine ⟨fun _ => cA rfl, ?_, hframe⟩
                  show st.envs.length ≤ st4.envs.length
                  omega
                | trap =>
                  refine ⟨fun h => by simp [Res.isAbort] at h, ?_, hframe⟩
                  show st.envs.length ≤ st4.envs.length
                  omega
                | fuelOut =>
                  refine ⟨fun h => by simp [Res.isAbort] at h, ?_, hframe⟩
                  show st.envs.length ≤ st4.envs.length
                  omega
          | int n => exact stepOkG_weaken hAF (fun _ => rfl)
          | bool b => exact stepOkG_weaken hAF (fun _ => rfl)
          | str v => exact stepOkG_weaken hAF (fun _ => rfl)
          | null => exact stepOkG_weaken hAF (fun _ => rfl)
          | returnValue v => exact stepOkG_weaken hAF (fun _ => rfl)
          | empty => exact stepOkG_weaken hAF (fun _ => rfl)

theorem treevalA_eval : ∀ (fuel : Nat) (e : Expression) (v : Int) (st : EvalSt),
    treevalA e = some v → arithFuel e ≤ fuel →
    evalExpr fuel e st = (.ok (.int v), st) := by
  intro fuel
  induction fuel using Nat.strong_induction_on with
  | _ fuel ih =>
    intro e v st hv hf
    cases e with
    | lit l =>
      cases l with
      | int n =>
        simp [treevalA] at hv
        match fuel, hf with
        | fuel+1, _ => simp [evalExpr, evalLiteral, hv]
      | str s => simp [treevalA] at hv
      | bool b => simp [treevalA] at hv
    | binary op l r =>
      match fuel, hf with
      | fu+2, hf =>
        have hfl : arithFuel l ≤ fu := by
          simp [arithFuel] at hf
          omega
        have hfr : arithFuel r ≤ fu := by
          simp [arithFuel] at hf
          omega
        have ihl := fun a hl => ih fu (by omega) l a st hl hfl
        have ihr := fun b hr => ih fu (by omega) r b st hr hfr
        cases op with
        | plus =>
          rw [treevalA] at hv
          cases hl : treevalA l with
          | none => rw [hl] at hv; simp at hv
          | some a =>
            cases hr : treevalA r with
            | none => rw [hl, hr] at hv; simp at hv
            | some b =>
              rw [hl, hr] at hv
              simp at hv
              rw [evalExpr, evalBinary, ihl a hl]
              dsimp only
              rw [ihr b hr]
              simp [binDispatch, evalIntegerOp, hv]
        | minus =>
          rw [treevalA] at hv
          cases hl : treevalA l with
          | none => rw [hl] at hv; simp at hv
          | some a =>
            cases hr : treevalA r with
            | none => rw [hl, hr] at hv; simp at hv
            | some b =>
              rw [hl, hr] at hv
              simp at hv
              rw [evalExpr, evalBinary, ihl a hl]
              dsimp only
              rw [ihr b hr]
              simp [binDispatch, evalIntegerOp, hv]
        | product =>
          rw [treevalA] at hv
          cases hl : treevalA l with
          | none => rw [hl] at hv; simp at hv
          | some a =>
            cases hr : treevalA r with
            | none => rw [hl, hr] at hv; simp at hv
            | some b =>
              rw [hl, hr] at hv
              simp at hv
              rw [evalExpr, evalBinary, ihl a hl]
              dsimp only
              rw [ihr b hr]
              simp [binDispatch, evalIntegerOp, hv]
        | divide =>
          rw [treevalA] at hv
          cases hl : treevalA l with
          | none => rw [hl] at hv; simp at hv
          | some a =>
            cases hr : treevalA r with
            | none => rw [hl, hr] at hv; simp at hv
            | some b =>
              rw [hl, hr] at hv
              dsimp only at hv
              by_cases hb : b = 0
              · rw [if_pos hb] at hv; simp at hv
              · rw [if_neg hb] at hv
                simp at hv
                rw [evalExpr, evalBinary, ihl a hl]
                dsimp only
                rw [ihr b hr]
                simp [binDispatch, evalIntegerOp, hb, hv]
        | equal => simp [treevalA] at hv
        | notEqual => simp [treevalA] at hv
        | greaterThan => simp [treevalA] at hv
        | lessThan => simp [treevalA] at hv
    | id name => simp [treevalA] at hv
    | unary op right => simp [treevalA] at hv
    | ifE c cs alt => simp [treevalA] at hv
    | func ps body => simp [treevalA] at hv
    | call f args => simp [treevalA] at hv

theorem aligned_to_end {toks : List Token} {st : PSt} {l : List Token}
    (h : Aligned toks st l) : AlignedEnd toks st (l.drop 1) := by
  obtain ⟨h1, h2, h3⟩ := h
  refine ⟨h2, ?_⟩
  rw [h3, List.drop_drop]

theorem next_token_aligned {toks : List Token} {st : PSt} {l' : List Token}
    (h : AlignedEnd toks st l') :
    next_token (toks.map Except.ok) st =
      (.ok (), ⟨st.pos + 1, st.peek, (l'.drop 1).headD .eof⟩) ∧
    Aligned toks ⟨st.pos + 1, st.peek, (l'.drop 1).headD .eof⟩ l' := by
  obtain ⟨hp, hd⟩ := h
  have hidx : toks[st.pos]? = (l'.drop 1).head? := by
    have hh := congrArg List.head? hd
    rwa [List.head?_drop] at hh
  have hpull : (toks.map (Except.ok : Token → Except String Token))[st.pos]? =
      ((l'.drop 1).head?).map Except.ok := by
    rw [List.getElem?_map, hidx]
  constructor
  · rw [next_token, pull, List.get?_eq_getElem?]
    cases hh : (l'.drop 1).head? with
    | none =>
      have h2 : (l'.drop 1).headD Token.eof = Token.eof := by
        have hh' := hh
        rw [List.head?_drop] at hh'
        simp [List.headD_eq_head?_getD, List.head?_drop, hh']
      rw [hpull, hh, h2]
      rfl
    | some t =>
      have h2 : (l'.drop 1).headD Token.eof = t := by
        have hh' := hh
        rw [List.head?_drop] at hh'
        simp [List.headD_eq_head?_getD, List.head?_drop, hh']
      rw [hpull, hh, h2]
      rfl
  · refine ⟨hp, rfl, ?_⟩
    show List.drop (st.pos + 1) toks = l'.drop 2
    have : List.drop (st.pos + 1) toks = (List.drop st.pos toks).drop 1 := by
      rw [List.drop_drop]
    rw [this, hd, List.drop_drop]

theorem next_token_ex {toks : List Token} {st : PSt} {l' : List Token}
    (h : AlignedEnd toks st l') :
    ∃ st1, next_token (toks.map Except.ok) st = (.ok (), st1) ∧ Aligned toks st1 l' := by
  obtain ⟨h1, h2⟩ := next_token_aligned h
  exact ⟨_, h1, h2⟩

theorem ref_suffix : ∀ fuel : Nat,
    (∀ l v l', refAtom fuel l = some (v, l') → l' <:+ l) ∧
    (∀ acc m v l', refTLoop fuel acc m = some (v, l') → l' <:+ m) ∧
    (∀ l v l', refT fuel l = some (v, l') → l' <:+ l) ∧
    (∀ acc m v l', refELoop fuel acc m = some (v, l') → l' <:+ m) ∧
    (∀ l v l', refE fuel l = some (v, l') → l' <:+ l) := by
  intro fuel
  induction fuel with
  | zero =>
    refine ⟨?_, ?_, ?_, ?_, ?_⟩ <;> intros <;>
      simp_all [refAtom, refTLoop, refT, refELoop, refE]
  | succ fuel ih =>
    obtain ⟨ihA, ihTL, ihT, ihEL, ihE⟩ := ih
    refine ⟨?_, ?_, ?_, ?_, ?_⟩
    · intro l v l' h
      cases l with
      | nil => simp [refAtom] at h
      | cons t rest =>
        cases t with
        | int n =>
          rw [refAtom] at h
          injection h with h
          injection h with h1 h2
          subst h2
          exact List.suffix_cons _ _
        | lparen =>
          rw [refAtom] at h
          cases he : refE fuel rest with
          | none => rw [he] at h; simp at h
          | some pr =>
            obtain ⟨v2, rest2⟩ := pr
            rw [he] at h
            cases rest2 with
            | nil => simp at h
            | cons t2 rest3 =>
              cases t2 <;> simp at h
              obtain ⟨h1, h2⟩ := h
              have hs := ihE rest v2 (Token.rparen :: rest3) he
              rw [← h2]
              calc rest3 <:+ Token.rparen :: rest3 := List.suffix_cons _ _
                _ <:+ rest := hs
                _ <:+ Token.lparen :: rest := List.suffix_cons _ _
        | _ => simp [refAtom] at h
    · intro acc m v l' h
      cases m with
      | nil =>
        simp [refTLoop] at h
        obtain ⟨rfl, rfl⟩ := h
        exact List.suffix_refl _
      | cons t rest =>
        cases t with
        | asterisk =>
          rw [refTLoop] at h
          cases ha : refAtom fuel rest with
          | none => rw [ha] at h; simp at h
          | some pr =>
            obtain ⟨a, rest'⟩ := pr
            rw [ha] at h
            calc l' <:+ rest' := ihTL _ _ _ _ h
              _ <:+ rest := ihA _ _ _ ha
              _ <:+ Token.asterisk :: rest := List.suffix_cons _ _
        | slash =>
          rw [refTLoop] at h
          cases ha : refAtom fuel rest with
          | none => rw [ha] at h; simp at h
          | some pr =>
            obtain ⟨a, rest'⟩ := pr
            rw [ha] at h
            dsimp only at h
            by_cases hz : a = 0
            · rw [if_pos hz] at h; simp at h
            · rw [if_neg hz] at h
              calc l' <:+ rest' := ihTL _ _ _ _ h
                _ <:+ rest := ihA _ _ _ ha
                _ <:+ Token.slash :: rest := List.suffix_cons _ _
        | _ =>
          simp [refTLoop] at h
          obtain ⟨rfl, rfl⟩ := h
          exact List.suffix_refl _
    · intro l v l' h
      rw [refT] at h
      cases ha : refAtom fuel l with
      | none => rw [ha] at h; simp at h
      | some pr =>
        obtain ⟨a, rest⟩ := pr
        rw [ha] at h
        calc l' <:+ rest := ihTL _ _ _ _ h
          _ <:+ l := ihA _ _ _ ha
    · intro acc m v l' h
      cases m with
      | nil =>
        simp [refELoop] at h
        obtain ⟨rfl, rfl⟩ := h
        exact List.suffix_refl _
      | cons t rest =>
        cases t with
        | plus =>
          rw [refELoop] at h
          cases ht : refT fuel rest with
          | none => rw [ht] at h; simp at h
          | some pr =>
            obtain ⟨a, rest'⟩ := pr
            rw [ht] at h
            calc l' <:+ rest' := ihEL _ _ _ _ h
              _ <:+ rest := ihT _ _ _ ht
              _ <:+ Token.plus :: rest := List.suffix_cons _ _
        | minus =>
          rw [refELoop] at h
          cases ht : refT fuel rest with
          | none => rw [ht] at h; simp at h
          | some pr =>
            obtain ⟨a, rest'⟩ := pr
            rw [ht] at h
            calc l' <:+ rest' := ihEL _ _ _ _ h
              _ <:+ rest := ihT _ _ _ ht
              _ <:+ Token.minus :: rest := List.suffix_cons _ _
        | _ =>
          simp [refELoop] at h
          obtain ⟨rfl, rfl⟩ := h
          exact List.suffix_refl _
    · intro l v l' h
      rw [refE] at h
      cases ht : refT fuel l with
      | none => rw [ht] at h; simp at h
      | some pr =>
        obtain ⟨a, rest⟩ := pr
        rw [ht] at h
        calc l' <:+ rest := ihEL _ _ _ _ h
          _ <:+ l := ihT _ _ _ ht

theorem arith_of_suffix {l l' : List Token} (hs : l' <:+ l)
    (h : ∀ t ∈ l, isArithTok t = true) : ∀ t ∈ l', isArithTok t = true :=
  fun t ht => h t (hs.subset ht)

theorem arith_tail {t : Token} {l : List Token}
    (h : ∀ x ∈ t :: l, isArithTok x = true) : ∀ x ∈ l, isArithTok x = true :=
  fun x hx => h x (List.mem_cons_of_mem t hx)

theorem refTLoop_stop_eq {f : Nat} {acc : Int} {m : List Token}
    (h1 : m.headD .eof ≠ .asterisk) (h2 : m.headD .eof ≠ .slash) :
    refTLoop (f+1) acc m = some (acc, m) := by
  cases m with
  | nil => rfl
  | cons t rest => cases t <;> simp_all [refTLoop]

theorem refELoop_stop_eq {f : Nat} {acc : Int} {m : List Token}
    (h1 : m.headD .eof ≠ .plus) (h2 : m.headD .eof ≠ .minus) :
    refELoop (f+1) acc m = some (acc, m) := by
  cases m with
  | nil => rfl
  | cons t rest => cases t <;> simp_all [refELoop]

theorem refTLoop_stop_head : ∀ (f : Nat) (acc : Int) (m : List Token) (v : Int)
    (l' : List Token), refTLoop f acc m = some (v, l') →
    l'.headD .eof ≠ .asterisk ∧ l'.headD .eof ≠ .slash := by
  intro f
  induction f with
  | zero => intro acc m v l' h; simp [refTLoop] at h
  | succ f ih =>
    intro acc m v l' h
    cases m with
    | nil =>
      simp [refTLoop] at h
      obtain ⟨rfl, rfl⟩ := h
      exact ⟨by simp, by simp⟩
    | cons t rest =>
      cases t with
      | asterisk =>
        rw [refTLoop] at h
        cases ha : refAtom f rest with
        | none => rw [ha] at h; simp at h
        | some pr =>
          obtain ⟨a, rest'⟩ := pr
          rw [ha] at h
          exact ih _ _ _ _ h
      | slash =>
        rw [refTLoop] at h
        cases ha : refAtom f rest with
        | none => rw [ha] at h; simp at h
        | some pr =>
          obtain ⟨a, rest'⟩ := pr
          rw [ha] at h
          dsimp only at h
          by_cases hz : a = 0
          · rw [if_pos hz] at h; simp at h
          · rw [if_neg hz] at h
            exact ih _ _ _ _ h
      | _ =>
        simp [refTLoop] at h
        obtain ⟨rfl, rfl⟩ := h
        constructor <;> simp

theorem refT_stop_head {f : Nat} {l : List Token} {v : Int} {l' : List Token}
    (h : refT f l = some (v, l')) :
    l'.headD .eof ≠ .asterisk ∧ l'.headD .eof ≠ .slash := by
  cases f with
  | zero => simp [refT] at h
  | succ f =>
    rw [refT] at h
    cases ha : refAtom f l with
    | none => rw [ha] at h; simp at h
    | some pr =>
      obtain ⟨a, rest⟩ := pr
      rw [ha] at h
      exact refTLoop_stop_head f a rest v l' h

theorem oploop_stop (s : List (Except String Token)) {bound : Precedence}
    {r : Except String Expression} {st : PSt}
    (h : st.peek = .semicolon ∨ precLt bound (get_precedence st.peek) = false) :
    ∀ pf, parse_op_loop s (pf+1) bound r st = some (r, st) := by
  intro pf
  rw [parse_op_loop]
  have hcond : ¬(st.peek ≠ Token.semicolon ∧ precLt bound (get_precedence st.peek) = true) := by
    rcases h with h | h
    · intro hc
      exact hc.1 h
    · intro hc
      rw [h] at hc
      exact Bool.false_ne_true hc.2
  rw [if_neg hcond]

theorem stop_product {t : Token} (h : t ≠ .lparen) :
    precLt .product (get_precedence t) = false := by
  cases t <;> simp_all [precLt, get_precedence, Precedence.toNat]

theorem stop_sum {t : Token} (h1 : t ≠ .lparen) (h2 : t ≠ .asterisk) (h3 : t ≠ .slash) :
    precLt .sum (get_precedence t) = false := by
  cases t <;> simp_all [precLt, get_precedence, Precedence.toNat]

theorem stop_lowest {t : Token} (ha : isArithTok t = true ∨ t = .eof) (h1 : t ≠ .lparen)
    (h2 : t ≠ .asterisk) (h3 : t ≠ .slash) (h4 : t ≠ .plus) (h5 : t ≠ .minus) :
    precLt .lowest (get_precedence t) = false := by
  cases t <;> simp_all [precLt, get_precedence, Precedence.toNat, isArithTok]

theorem oploop_step_binary (s : List (Except String Token)) (prec : Precedence)
    (left : Expression) (st st1 : PSt) (fuel : Nat)
    (ht : st.peek = .plus ∨ st.peek = .minus ∨ st.peek = .slash ∨ st.peek = .asterisk)
    (hlt : precLt prec (get_precedence st.peek) = true)
    (hnext : next_token s st = (.ok (), st1)) :
    parse_op_loop s (fuel+1) prec (.ok left) st =
      (match parse_binary_expr s fuel left st1 with
       | none => none
       | some (r', st2) => parse_op_loop s fuel prec r' st2) := by
  obtain ⟨pos, cur, pk⟩ := st
  have hpk : pk = .plus ∨ pk = .minus ∨ pk = .slash ∨ pk = .asterisk := ht
  have hlt' : precLt prec (get_precedence pk) = true := hlt
  have hnext' : next_token s ⟨pos, cur, pk⟩ = (.ok (), st1) := hnext
  rcases hpk with h | h | h | h <;> subst h <;>
    (rw [parse_op_loop]
     rw [if_pos (And.intro (fun hc => Token.noConfusion hc) hlt')]
     dsimp only
     rw [hnext'])

theorem parse_binary_eq (s : List (Except String Token)) (left : Expression)
    (st st2 st3 : PSt) (fuel : Nat) (op : BinOp) (e' : Expression)
    (hop : binOpOfToken st.current = some op)
    (hnext : next_token s st = (.ok (), st2))
    (hinner : parse_expression s fuel (get_precedence st.current) st2 = some (.ok e', st3)) :
    parse_binary_expr s (fuel+1) left st = some (.ok (.binary op left e'), st3) := by
  rw [parse_binary_expr, hop]
  dsimp only
  rw [hnext]
  dsimp only [pbind]
  rw [hinner]

theorem stepAtomP (toks : List Token) (k : Nat) (hA : EqAtom toks k) :
    EqAtomP toks k := by
  intro l a l' st href hlp harith halign
  obtain ⟨e0, st0, pf0, hval, hend, heq⟩ := hA l a l' st href harith halign
  refine ⟨e0, st0, pf0 + 2, hval, hend, ?_⟩
  intro pf hpf
  obtain ⟨q, rfl⟩ : ∃ q, pf = q + 2 := ⟨pf - 2, by omega⟩
  rw [heq (q+1) (by omega) .product]
  have hstop : precLt .product (get_precedence st0.peek) = false := by
    rw [hend.1]
    exact stop_product hlp
  exact oploop_stop (toks.map Except.ok) (Or.inr hstop) q

theorem stepAtom (toks : List Token) (k : Nat)
    (hE : ∀ j, j < k → EqE toks j) : EqAtom toks k := by
  intro l a rest' st href harith halign
  obtain ⟨pos, cur, pk⟩ := st
  cases k with
  | zero => simp [refAtom] at href
  | succ j =>
    cases l with
    | nil => simp [refAtom] at href
    | cons t rest =>
      cases t with
      | int n =>
        rw [refAtom] at href
        injection href with href
        injection href with h1 h2
        subst h1
        subst h2
        have hcur : cur = Token.int n := halign.1
        subst hcur
        refine ⟨.lit (.int n), ⟨pos, .int n, pk⟩, 0, rfl, aligned_to_end halign, ?_⟩
        intro pf _ prec
        rfl
      | lparen =>
        have hcur : cur = Token.lparen := halign.1
        subst hcur
        rw [refAtom] at href
        cases he : refE j rest with
        | none => rw [he] at href; simp at href
        | some pr =>
          obtain ⟨v2, rest2⟩ := pr
          rw [he] at href
          cases rest2 with
          | nil => simp at href
          | cons t2 rest3 =>
            cases t2 <;> simp at href
            obtain ⟨h1, h2⟩ := href
            subst h1
            subst h2
            obtain ⟨hn1, ha1⟩ := next_token_aligned (aligned_to_end halign)
            obtain ⟨e1, st', pf0', hval1, hend1, heq1⟩ :=
              hE j (Nat.lt_succ_self j) rest v2 (Token.rparen :: rest3) _ he
                (fun hc => Token.noConfusion hc) (arith_tail harith) ha1
            obtain ⟨hn2, ha2⟩ := next_token_aligned hend1
            refine ⟨e1, _, pf0' + 1, hval1, aligned_to_end ha2, ?_⟩
            intro pf hpf prec
            obtain ⟨q, rfl⟩ : ∃ q, pf = q + 1 := ⟨pf - 1, by omega⟩
            have hpeek : st'.peek = Token.rparen := hend1.1
            have hgroup : parse_grouped_expr (toks.map Except.ok) (q+1)
                ⟨pos, .lparen, pk⟩ = some (.ok e1,
                  ⟨st'.pos + 1, st'.peek,
                    ((Token.rparen :: rest3).drop 1).headD .eof⟩) := by
              rw [parse_grouped_expr, hn1]
              dsimp only
              rw [heq1 q (by omega)]
              dsimp only
              rw [if_neg (not_not_intro hpeek), hn2]
            rw [parse_expression]
            dsimp only
            rw [hgroup]
      | plus => simp [refAtom] at href
      | minus => simp [refAtom] at href
      | asterisk => simp [refAtom] at href
      | slash => simp [refAtom] at href
      | rparen => simp [refAtom] at href
      | _ => simp [refAtom] at href

theorem stepT (toks : List Token) (k : Nat)
    (hA : ∀ j, j < k → EqAtom toks j) (hS : ∀ j, j < k → EqTLoopSum toks j) :
    EqT toks k := by
  intro l v l' st href hlp harith halign
  cases k with
  | zero => simp [refT] at href
  | succ j =>
    rw [refT] at href
    cases ha : refAtom j l with
    | none => rw [ha] at href; simp at href
    | some pr =>
      obtain ⟨a, rest⟩ := pr
      rw [ha] at href
      obtain ⟨e0, st0, pf0A, hval0, hend0, heq0⟩ :=
        hA j (Nat.lt_succ_self j) l a rest st ha harith halign
      have harith' : ∀ t ∈ rest, isArithTok t = true :=
        arith_of_suffix ((ref_suffix j).1 l a rest ha) harith
      obtain ⟨e, st', pf0B, hval, hend, heq⟩ :=
        hS j (Nat.lt_succ_self j) a rest v l' href hlp harith' e0 st0 hval0 hend0
      refine ⟨e, st', pf0A + pf0B + 1, hval, hend, ?_⟩
      intro pf hpf
      obtain ⟨q, rfl⟩ : ∃ q, pf = q + 1 := ⟨pf - 1, by omega⟩
      rw [heq0 q (by omega) .sum, heq q (by omega)]

theorem stepTLoopSum (toks : List Token) (k : Nat)
    (hP : ∀ j, j < k → EqAtomP toks j) (hS : ∀ j, j < k → EqTLoopSum toks j) :
    EqTLoopSum toks k := by
  intro t0 m v l' href hlp harith e0 st0 hval0 hend0
  cases k with
  | zero => simp [refTLoop] at href
  | succ j =>
    cases m with
    | nil =>
      simp [refTLoop] at href
      obtain ⟨rfl, rfl⟩ := href
      refine ⟨e0, st0, 1, hval0, hend0, ?_⟩
      intro pf hpf
      obtain ⟨q, rfl⟩ : ∃ q, pf = q + 1 := ⟨pf - 1, by omega⟩
      apply oploop_stop
      right
      rw [hend0.1]
      decide
    | cons t rest =>
      cases t with
      | asterisk =>
        rw [refTLoop] at href
        cases ha : refAtom j rest with
        | none => rw [ha] at href; simp at href
        | some pr =>
          obtain ⟨a, rest2⟩ := pr
          rw [ha] at href
          dsimp only at href
          have hne : rest2.headD .eof ≠ .lparen := by
            intro hlp2
            cases j with
            | zero => simp [refTLoop] at href
            | succ j' =>
              rw [refTLoop_stop_eq (by rw [hlp2]; decide) (by rw [hlp2]; decide)] at href
              injection href with href
              injection href with h1 h2
              exact hlp (h2 ▸ hlp2)
          obtain ⟨st1, hn1, ha1⟩ := next_token_ex hend0
          obtain ⟨st2, hn2, ha2⟩ := next_token_ex (aligned_to_end ha1)
          have harith2 : ∀ x ∈ rest, isArithTok x = true := arith_tail harith
          obtain ⟨e1, st3, pf0P, hval1, hend1, heqP⟩ :=
            hP j (Nat.lt_succ_self j) rest a rest2 st2 ha hne harith2 ha2
          have harith3 : ∀ x ∈ rest2, isArithTok x = true :=
            arith_of_suffix ((ref_suffix j).1 rest a rest2 ha) harith2
          have hvalb : treevalA (.binary .product e0 e1) = some (t0 * a) := by
            simp [treevalA, hval0, hval1]
          obtain ⟨e, st', pf0S, hval, hend, heqS⟩ :=
            hS j (Nat.lt_succ_self j) (t0 * a) rest2 v l' href hlp harith3
              (.binary .product e0 e1) st3 hvalb hend1
          refine ⟨e, st', pf0P + pf0S + 2, hval, hend, ?_⟩
          intro pf hpf
          obtain ⟨q, rfl⟩ : ∃ q, pf = q + 1 + 1 := ⟨pf - 2, by omega⟩
          have hpk : st0.peek = Token.asterisk := hend0.1
          rw [oploop_step_binary (toks.map Except.ok) .sum e0 st0 st1 (q+1)
            (Or.inr (Or.inr (Or.inr hpk))) (by rw [hpk]; decide) hn1]
          have hbin : parse_binary_expr (toks.map Except.ok) (q+1) e0 st1 =
              some (.ok (.binary .product e0 e1), st3) :=
            parse_binary_eq _ e0 st1 st2 st3 q .product e1 (by rw [ha1.1]; rfl) hn2
              (by rw [ha1.1]; exact heqP q (by omega))
          rw [hbin]
          exact heqS (q+1) (by omega)
      | slash =>
        rw [refTLoop] at href
        cases ha : refAtom j rest with
        | none => rw [ha] at href; simp at href
        | some pr =>
          obtain ⟨a, rest2⟩ := pr
          rw [ha] at href
          dsimp only at href
          by_cases hz : a = 0
          · rw [if_pos hz] at href
            simp at href
          · rw [if_neg hz] at href
            have hne : rest2.headD .eof ≠ .lparen := by
              intro hlp2
              cases j with
              | zero => simp [refTLoop] at href
              | succ j' =>
                rw [refTLoop_stop_eq (by rw [hlp2]; decide) (by rw [hlp2]; decide)] at href
                injection href with href
                injection href with h1 h2
                exact hlp (h2 ▸ hlp2)
            obtain ⟨st1, hn1, ha1⟩ := next_token_ex hend0
            obtain ⟨st2, hn2, ha2⟩ := next_token_ex (aligned_to_end ha1)
            have harith2 : ∀ x ∈ rest, isArithTok x = true := arith_tail harith
            obtain ⟨e1, st3, pf0P, hval1, hend1, heqP⟩ :=
              hP j (Nat.lt_succ_self j) rest a rest2 st2 ha hne harith2 ha2
            have harith3 : ∀ x ∈ rest2, isArithTok x = true :=
              arith_of_suffix ((ref_suffix j).1 rest a rest2 ha) harith2
            have hvalb : treevalA (.binary .divide e0 e1) = some (Int.tdiv t0 a) := by
              simp [treevalA, hval0, hval1, hz]
            obtain ⟨e, st', pf0S, hval, hend, heqS⟩ :=
              hS j (Nat.lt_succ_self j) (Int.tdiv t0 a) rest2 v l' href hlp harith3
                (.binary .divide e0 e1) st3 hvalb hend1
            refine ⟨e, st', pf0P + pf0S + 2, hval, hend, ?_⟩
            intro pf hpf
            obtain ⟨q, rfl⟩ : ∃ q, pf = q + 1 + 1 := ⟨pf - 2, by omega⟩
            have hpk : st0.peek = Token.slash := hend0.1
            rw [oploop_step_binary (toks.map Except.ok) .sum e0 st0 st1 (q+1)
              (Or.inr (Or.inr (Or.inl hpk))) (by rw [hpk]; decide) hn1]
            have hbin : parse_binary_expr (toks.map Except.ok) (q+1) e0 st1 =
                some (.ok (.binary .divide e0 e1), st3) :=
              parse_binary_eq _ e0 st1 st2 st3 q .divide e1 (by rw [ha1.1]; rfl) hn2
                (by rw [ha1.1]; exact heqP q (by omega))
            rw [hbin]
            exact heqS (q+1) (by omega)
      | _ =>
        simp [refTLoop] at href
        obtain ⟨rfl, rfl⟩ := href
        refine ⟨e0, st0, 1, hval0, hend0, ?_⟩
        intro pf hpf
        obtain ⟨q, rfl⟩ : ∃ q, pf = q + 1 := ⟨pf - 1, by omega⟩
        apply oploop_stop
        right
        rw [hend0.1]
        exact stop_sum hlp (fun hc => Token.noConfusion hc) (fun hc => Token.noConfusion hc)

theorem stepELoop (toks : List Token) (k : Nat)
    (hT : ∀ j, j < k → EqT toks j) (hE : ∀ j, j < k → EqELoop toks j) :
    EqELoop toks k := by
  intro t1 m1 v l' href hlp hm1a hm1s harith e0 st0 hval0 hend0
  cases k with
  | zero => simp [refELoop] at href
  | succ j =>
    cases m1 with
    | nil =>
      simp [refELoop] at href
      obtain ⟨rfl, rfl⟩ := href
      refine ⟨e0, st0, 1, hval0, hend0, ?_⟩
      intro pf hpf
      obtain ⟨q, rfl⟩ : ∃ q, pf = q + 1 := ⟨pf - 1, by omega⟩
      apply oploop_stop
      right
      rw [hend0.1]
      decide
    | cons t rest =>
      cases t with
      | plus =>
        rw [refELoop] at href
        cases ht : refT j rest with
        | none => rw [ht] at href; simp at href
        | some pr =>
          obtain ⟨a, rest2⟩ := pr
          rw [ht] at href
          dsimp only at href
          have hne : rest2.headD .eof ≠ .lparen := by
            intro hlp2
            cases j with
            | zero => simp [refELoop] at href
            | succ j' =>
              rw [refELoop_stop_eq (by rw [hlp2]; decide) (by rw [hlp2]; decide)] at href
              injection href with href
              injection href with h1 h2
              exact hlp (h2 ▸ hlp2)
          obtain ⟨hs1, hs2⟩ := refT_stop_head ht
          obtain ⟨st1, hn1, ha1⟩ := next_token_ex hend0
          obtain ⟨st2, hn2, ha2⟩ := next_token_ex (aligned_to_end ha1)
          have harith2 : ∀ x ∈ rest, isArithTok x = true := arith_tail harith
          obtain ⟨e1, st3, pf0T, hval1, hend1, heqT⟩ :=
            hT j (Nat.lt_succ_self j) rest a rest2 st2 ht hne harith2 ha2
          have harith3 : ∀ x ∈ rest2, isArithTok x = true :=
            arith_of_suffix ((ref_suffix j).2.2.1 rest a rest2 ht) harith2
          have hvalb : treevalA (.binary .plus e0 e1) = some (t1 + a) := by
            simp [treevalA, hval0, hval1]
          obtain ⟨e, st', pf0E, hval, hend, heqE⟩ :=
            hE j (Nat.lt_succ_self j) (t1 + a) rest2 v l' href hlp hs1 hs2 harith3
              (.binary .plus e0 e1) st3 hvalb hend1
          refine ⟨e, st', pf0T + pf0E + 2, hval, hend, ?_⟩
          intro pf hpf
          obtain ⟨q, rfl⟩ : ∃ q, pf = q + 1 + 1 := ⟨pf - 2, by omega⟩
          have hpk : st0.peek = Token.plus := hend0.1
          rw [oploop_step_binary (toks.map Except.ok) .lowest e0 st0 st1 (q+1)
            (Or.inl hpk) (by rw [hpk]; decide) hn1]
          have hbin : parse_binary_expr (toks.map Except.ok) (q+1) e0 st1 =
              some (.ok (.binary .plus e0 e1), st3) :=
            parse_binary_eq _ e0 st1 st2 st3 q .plus e1 (by rw [ha1.1]; rfl) hn2
              (by rw [ha1.1]; exact heqT q (by omega))
          rw [hbin]
          exact heqE (q+1) (by omega)
      | minus =>
        rw [refELoop] at href
        cases ht : refT j rest with
        | none => rw [ht] at href; simp at href
        | some pr =>
          obtain ⟨a, rest2⟩ := pr
          rw [ht] at href
          dsimp only at href
          have hne : rest2.headD .eof ≠ .lparen := by
            intro hlp2
            cases j with
            | zero => simp [refELoop] at href
            | succ j' =>
              rw [refELoop_stop_eq (by rw [hlp2]; decide) (by rw [hlp2]; decide)] at href
              injection href with href
              injection href with h1 h2
              exact hlp (h2 ▸ hlp2)
          obtain ⟨hs1, hs2⟩ := refT_stop_head ht
          obtain ⟨st1, hn1, ha1⟩ := next_token_ex hend0
          obtain ⟨st2, hn2, ha2⟩ := next_token_ex (aligned_to_end ha1)
          have harith2 : ∀ x ∈ rest, isArithTok x = true := arith_tail harith
          obtain ⟨e1, st3, pf0T, hval1, hend1, heqT⟩ :=
            hT j (Nat.lt_succ_self j) rest a rest2 st2 ht hne harith2 ha2
          have harith3 : ∀ x ∈ rest2, isArithTok x = true :=
            arith_of_suffix ((ref_suffix j).2.2.1 rest a rest2 ht) harith2
          have hvalb : treevalA (.binary .minus e0 e1) = some (t1 - a) := by
            simp [treevalA, hval0, hval1]
          obtain ⟨e, st', pf0E, hval, hend, heqE⟩ :=
            hE j (Nat.lt_succ_self j) (t1 - a) rest2 v l' href hlp hs1 hs2 harith3
              (.binary .minus e0 e1) st3 hvalb hend1
          refine ⟨e, st', pf0T + pf0E + 2, hval, hend, ?_⟩
          intro pf hpf
          obtain ⟨q, rfl⟩ : ∃ q, pf = q + 1 + 1 := ⟨pf - 2, by omega⟩
          have hpk : st0.peek = Token.minus := hend0.1
          rw [oploop_step_binary (toks.map Except.ok) .lowest e0 st0 st1 (q+1)
            (Or.inr (Or.inl hpk)) (by rw [hpk]; decide) hn1]
          have hbin : parse_binary_expr (toks.map Except.ok) (q+1) e0 st1 =
              some (.ok (.binary .minus e0 e1), st3) :=
            parse_binary_eq _ e0 st1 st2 st3 q .minus e1 (by rw [ha1.1]; rfl) hn2
              (by rw [ha1.1]; exact heqT q (by omega))
          rw [hbin]
          exact heqE (q+1) (by omega)
      | _ =>
        simp [refELoop] at href
        obtain ⟨rfl, rfl⟩ := href
        refine ⟨e0, st0, 1, hval0, hend0, ?_⟩
        intro pf hpf
        obtain ⟨q, rfl⟩ : ∃ q, pf = q + 1 := ⟨pf - 1, by omega⟩
        apply oploop_stop
        right
        rw [hend0.1]
        exact stop_lowest (Or.inl (harith _ (List.mem_cons_self _ _))) hlp hm1a hm1s
          (fun hc => Token.noConfusion hc) (fun hc => Token.noConfusion hc)

theorem stepTLoopLow (toks : List Token) (k : Nat)
    (hP : ∀ j, j < k → EqAtomP toks j) (hL : ∀ j, j < k → EqTLoopLow toks j) :
    EqTLoopLow toks k := by
  intro t0 m t1 m1 href hm1 harith e0 st0 hval0 hend0
  cases k with
  | zero => simp [refTLoop] at href
  | succ j =>
    cases m with
    | nil =>
      simp [refTLoop] at href
      obtain ⟨rfl, rfl⟩ := href
      exact ⟨e0, st0, 0, 0, hval0, hend0, fun pf _ => rfl⟩
    | cons t rest =>
      cases t with
      | asterisk =>
        rw [refTLoop] at href
        cases ha : refAtom j rest with
        | none => rw [ha] at href; simp at href
        | some pr =>
          obtain ⟨a, rest2⟩ := pr
          rw [ha] at href
          dsimp only at href
          have hne : rest2.headD .eof ≠ .lparen := by
            intro hlp2
            cases j with
            | zero => simp [refTLoop] at href
            | succ j' =>
              rw [refTLoop_stop_eq (by rw [hlp2]; decide) (by rw [hlp2]; decide)] at href
              injection href with href
              injection href with h1 h2
              exact hm1 (h2 ▸ hlp2)
          obtain ⟨st1, hn1, ha1⟩ := next_token_ex hend0
          obtain ⟨st2, hn2, ha2⟩ := next_token_ex (aligned_to_end ha1)
          have harith2 : ∀ x ∈ rest, isArithTok x = true := arith_tail harith
          obtain ⟨e1, st3, pf0P, hval1, hend1, heqP⟩ :=
            hP j (Nat.lt_succ_self j) rest a rest2 st2 ha hne harith2 ha2
          have harith3 : ∀ x ∈ rest2, isArithTok x = true :=
            arith_of_suffix ((ref_suffix j).1 rest a rest2 ha) harith2
          have hvalb : treevalA (.binary .product e0 e1) = some (t0 * a) := by
            simp [treevalA, hval0, hval1]
          obtain ⟨e2, st4, steps, pf0L, hval2, hend2, heqL⟩ :=
            hL j (Nat.lt_succ_self j) (t0 * a) rest2 t1 m1 href hm1 harith3
              (.binary .product e0 e1) st3 hvalb hend1
          refine ⟨e2, st4, steps + 1, pf0P + pf0L + steps + 2, hval2, hend2, ?_⟩
          intro pf hpf
          obtain ⟨q, rfl⟩ : ∃ q, pf = q + 1 + 1 := ⟨pf - 2, by omega⟩
          have hpk : st0.peek = Token.asterisk := hend0.1
          rw [oploop_step_binary (toks.map Except.ok) .lowest e0 st0 st1 (q+1)
            (Or.inr (Or.inr (Or.inr hpk))) (by rw [hpk]; decide) hn1]
          have hbin : parse_binary_expr (toks.map Except.ok) (q+1) e0 st1 =
              some (.ok (.binary .product e0 e1), st3) :=
            parse_binary_eq _ e0 st1 st2 st3 q .product e1 (by rw [ha1.1]; rfl) hn2
              (by rw [ha1.1]; exact heqP q (by omega))
          rw [hbin]
          have hq : q + 1 + 1 - (steps + 1) = q + 1 - steps := by omega
          rw [hq]
          exact heqL (q+1) (by omega)
      | slash =>
        rw [refTLoop] at href
        cases ha : refAtom j rest with
        | none => rw [ha] at href; simp at href
        | some pr =>
          obtain ⟨a, rest2⟩ := pr
          rw [ha] at href
          dsimp only at href
          by_cases hz : a = 0
          · rw [if_pos hz] at href
            simp at href
          · rw [if_neg hz] at href
            have hne : rest2.headD .eof ≠ .lparen := by
              intro hlp2
              cases j with
              | zero => simp [refTLoop] at href
              | succ j' =>
                rw [refTLoop_stop_eq (by rw [hlp2]; decide) (by rw [hlp2]; decide)] at href
                injection href with href
                injection href with h1 h2
                exact hm1 (h2 ▸ hlp2)
            obtain ⟨st1, hn1, ha1⟩ := next_token_ex hend0
            obtain ⟨st2, hn2, ha2⟩ := next_token_ex (aligned_to_end ha1)
            have harith2 : ∀ x ∈ rest, isArithTok x = true := arith_tail harith
            obtain ⟨e1, st3, pf0P, hval1, hend1, heqP⟩ :=
              hP j (Nat.lt_succ_self j) rest a rest2 st2 ha hne harith2 ha2
            have harith3 : ∀ x ∈ rest2, isArithTok x = true :=
              arith_of_suffix ((ref_suffix j).1 rest a rest2 ha) harith2
            have hvalb : treevalA (.binary .divide e0 e1) = some (Int.tdiv t0 a) := by
              simp [treevalA, hval0, hval1, hz]
            obtain ⟨e2, st4, steps, pf0L, hval2, hend2, heqL⟩ :=
              hL j (Nat.lt_succ_self j) (Int.tdiv t0 a) rest2 t1 m1 href hm1 harith3
                (.binary .divide e0 e1) st3 hvalb hend1
            refine ⟨e2, st4, steps + 1, pf0P + pf0L + steps + 2, hval2, hend2, ?_⟩
            intro pf hpf
            obtain ⟨q, rfl⟩ : ∃ q, pf = q + 1 + 1 := ⟨pf - 2, by omega⟩
            have hpk : st0.peek = Token.slash := hend0.1
            rw [oploop_step_binary (toks.map Except.ok) .lowest e0 st0 st1 (q+1)
              (Or.inr (Or.inr (Or.inl hpk))) (by rw [hpk]; decide) hn1]
            have hbin : parse_binary_expr (toks.map Except.ok) (q+1) e0 st1 =
                some (.ok (.binary .divide e0 e1), st3) :=
              parse_binary_eq _ e0 st1 st2 st3 q .divide e1 (by rw [ha1.1]; rfl) hn2
                (by rw [ha1.1]; exact heqP q (by omega))
            rw [hbin]
            have hq : q + 1 + 1 - (steps + 1) = q + 1 - steps := by omega
            rw [hq]
            exact heqL (q+1) (by omega)
      | _ =>
        simp [refTLoop] at href
        obtain ⟨rfl, rfl⟩ := href
        exact ⟨e0, st0, 0, 0, hval0, hend0, fun pf _ => rfl⟩

theorem stepE (toks : List Token) (k : Nat)
    (hA : ∀ j, j < k → EqAtom toks j)
    (hL : ∀ j, j < k → EqTLoopLow toks j)
    (hEL : ∀ j, j < k → EqELoop toks j) : EqE toks k := by
  intro l v l' st href hlp harith halign
  cases k with
  | zero => simp [refE] at href
  | succ j =>
    rw [refE] at href
    cases ht : refT j l with
    | none => rw [ht] at href; simp at href
    | some pr =>
      obtain ⟨t1, m1⟩ := pr
      rw [ht] at href
      dsimp only at href
      obtain ⟨hs1, hs2⟩ := refT_stop_head ht
      have hm1 : m1.headD .eof ≠ .lparen := by
        intro hlp2
        cases j with
        | zero => simp [refELoop] at href
        | succ j' =>
          rw [refELoop_stop_eq (by rw [hlp2]; decide) (by rw [hlp2]; decide)] at href
          injection href with href
          injection href with h1 h2
          exact hlp (h2 ▸ hlp2)
      cases j with
      | zero => simp [refT] at ht
      | succ jt =>
        rw [refT] at ht
        cases ha : refAtom jt l with
        | none => rw [ha] at ht; simp at ht
        | some pr2 =>
          obtain ⟨a, rest⟩ := pr2
          rw [ha] at ht
          dsimp only at ht
          obtain ⟨e0, st0, pf0A, hval0, hend0, heqA⟩ :=
            hA jt (by omega) l a rest st ha harith halign
          have harith2 : ∀ x ∈ rest, isArithTok x = true :=
            arith_of_suffix ((ref_suffix jt).1 l a rest ha) harith
          obtain ⟨e1, st1, steps, pf0L, hval1, hend1, heqL⟩ :=
            hL jt (by omega) a rest t1 m1 ht hm1 harith2 e0 st0 hval0 hend0
          have harith3 : ∀ x ∈ m1, isArithTok x = true :=
            arith_of_suffix ((ref_suffix jt).2.1 a rest t1 m1 ht) harith2
          obtain ⟨e, st', pf0E, hval, hend, heqE⟩ :=
            hEL (jt+1) (by omega) t1 m1 v l' href hlp hs1 hs2 harith3 e1 st1 hval1 hend1
          refine ⟨e, st', pf0A + pf0L + pf0E + steps + 1, hval, hend, ?_⟩
          intro pf hpf
          obtain ⟨q, rfl⟩ : ∃ q, pf = q + 1 := ⟨pf - 1, by omega⟩
          rw [heqA q (by omega) .lowest, heqL q (by omega)]
          exact heqE (q - steps) (by omega)

theorem eqMaster (toks : List Token) : ∀ k,
    EqAtom toks k ∧ EqAtomP toks k ∧ EqT toks k ∧ EqTLoopSum toks k ∧
    EqELoop toks k ∧ EqTLoopLow toks k ∧ EqE toks k := by
  intro k
  induction k using Nat.strong_induction_on with
  | _ k ih =>
    have hA : EqAtom toks k := stepAtom toks k (fun j hj => (ih j hj).2.2.2.2.2.2)
    have hP : EqAtomP toks k := stepAtomP toks k hA
    have hT : EqT toks k :=
      stepT toks k (fun j hj => (ih j hj).1) (fun j hj => (ih j hj).2.2.2.1)
    have hS : EqTLoopSum toks k :=
      stepTLoopSum toks k (fun j hj => (ih j hj).2.1) (fun j hj => (ih j hj).2.2.2.1)
    have hEL : EqELoop toks k :=
      stepELoop toks k (fun j hj => (ih j hj).2.2.1) (fun j hj => (ih j hj).2.2.2.2.1)
    have hL : EqTLoopLow toks k :=
      stepTLoopLow toks k (fun j hj => (ih j hj).2.1) (fun j hj => (ih j hj).2.2.2.2.2.1)
    have hE : EqE toks k :=
      stepE toks k (fun j hj => (ih j hj).1) (fun j hj => (ih j hj).2.2.2.2.2.1)
        (fun j hj => (ih j hj).2.2.2.2.1)
    exact ⟨hA, hP, hT, hS, hEL, hL, hE⟩

theorem refE_nil (rf : Nat) : refE rf [] = none := by
  cases rf with
  | zero => rfl
  | succ f =>
    rw [refE]
    cases hT : refT f [] with
    | none => rfl
    | some pr =>
      exfalso
      cases f with
      | zero => simp [refT] at hT
      | succ f' =>
        rw [refT] at hT
        cases hA : refAtom f' [] with
        | none => rw [hA] at hT; simp at hT
        | some pr2 =>
          cases f' with
          | zero => simp [refAtom] at hA
          | succ f'' => simp [refAtom] at hA

theorem first_advance (toks : List Token) :
    next_token (toks.map Except.ok) ⟨0, .illegal, .illegal⟩ =
      (.ok (), ⟨1, .illegal, toks.headD .eof⟩) := by
  cases toks with
  | nil => rfl
  | cons t rest => rfl

theorem arith_head_facts {t : Token} (h : isArithTok t = true) :
    t ≠ .eof ∧ t ≠ .letT ∧ t ≠ .ret := by
  cases t <;> simp_all [isArithTok]

theorem parse_statement_arith (s : List (Except String Token)) (fuel : Nat) (st : PSt)
    (h1 : st.current ≠ .letT) (h2 : st.current ≠ .ret) :
    parse_statement s (fuel+1) st =
      (match (match parse_expression s fuel Precedence.lowest st with
              | none => none
              | some (r, st1) =>
                some ((Except.map Statement.expr r : Except String Statement), st1)) with
       | none => none
       | some (r, st1) =>
         if st1.peek = Token.semicolon ∨ st1.peek = Token.eof then
           match next_token s st1 with
           | (Except.error e, st2) => some (Except.error e, st2)
           | (Except.ok _, st2) => some (r, st2)
         else some (r, st1)) := by
  obtain ⟨pos, cur, pk⟩ := st
  cases cur with
  | letT => exact absurd rfl h1
  | ret => exact absurd rfl h2
  | _ => rfl

theorem refE_runToks (toks : List Token) (v : Int) (rf : Nat)
    (harith : ∀ t ∈ toks, isArithTok t = true)
    (href : refE rf toks = some (v, [])) :
    ∃ pf ef, runToks pf ef (toks.map Except.ok) = some (.ok (.int v)) := by
  cases toks with
  | nil =>
    rw [refE_nil] at href
    exact Option.noConfusion href
  | cons t0 rest0 =>
    have hstart : AlignedEnd (t0 :: rest0) ⟨1, .illegal, (t0 :: rest0).headD .eof⟩
        (t0 :: rest0) := ⟨rfl, rfl⟩
    obtain ⟨st, hn0, ha0⟩ := next_token_ex hstart
    have hinit : initParser ((t0 :: rest0).map Except.ok) = st := by
      rw [initParser, first_advance]
      dsimp only
      rw [hn0]
    obtain ⟨e, st', pf0, hval, hend, heq⟩ :=
      (eqMaster (t0 :: rest0) rf).2.2.2.2.2.2 (t0 :: rest0) v [] st href
        (by decide) harith ha0
    have hfacts := arith_head_facts (harith t0 (List.mem_cons_self t0 rest0))
    have hcur : st.current = t0 := ha0.1
    have hpeek' : st'.peek = Token.eof := hend.1
    obtain ⟨st2, hn2, ha2⟩ := next_token_ex hend
    obtain ⟨st3, hn3, ha3⟩ := next_token_ex (aligned_to_end ha2)
    have hstmt : parse_statement ((t0 :: rest0).map Except.ok) (pf0+1) st =
        some (.ok (.expr e), st2) := by
      rw [parse_statement_arith _ pf0 st (by rw [hcur]; exact hfacts.2.1)
        (by rw [hcur]; exact hfacts.2.2)]
      rw [heq pf0 (Nat.le_refl pf0)]
      dsimp only [Except.map]
      rw [if_pos (Or.inr hpeek'), hn2]
    have hcur3 : st3.current = Token.eof := ha3.1
    have hloop : parse_program_loop ((t0 :: rest0).map Except.ok) (pf0+1+1) [] st =
        some (.ok [.ok (.expr e)], st3) := by
      rw [parse_program_loop]
      rw [if_neg (by rw [hcur]; exact hfacts.1)]
      rw [hstmt]
      dsimp only
      rw [hn3]
      dsimp only
      rw [parse_program_loop]
      rw [if_pos hcur3]
      rfl
    have hprog : parse_program ((t0 :: rest0).map Except.ok) (pf0+1+1+1)
        (initParser ((t0 :: rest0).map Except.ok)) =
        some (.ok [.ok (.expr e)], st3) := by
      rw [parse_program, hinit, hloop]
    have hst : evalStatement (arithFuel e + 1 + 1) (.expr e) initSt =
        (.ok (.int v), initSt) :=
      treevalA_eval (arithFuel e + 1) e v initSt hval (Nat.le_succ _)
    have heval : evalProgram (arithFuel e + 1 + 1 + 1) [.ok (.expr e)] initSt =
        (.ok (.int v), initSt) := by
      rw [evalProgram, evalProgramLoop, hst]
      dsimp only
      rw [evalProgramLoop]
    refine ⟨pf0+1+1+1, arithFuel e + 1 + 1 + 1, ?_⟩
    simp only [runToks]
    rw [hprog]
    dsimp only
    rw [heval]

/-! ### Claim theorems -/

/-- C1 (code bug): the `ReturnValue` sentinel is *not* unwrapped at the
call boundary.  In `let f = fn() { return 1; }; return f();` the call
`f()` evaluates to `ReturnValue(Int 1)`, the outer `return` re-wraps it,
and the top level unwraps only one layer, so the top-level `eval` entry
point hands `ReturnValue(Int 1)` to its caller; and in
`let f = fn() { return 1; }; f(); 9;` the un-unwrapped sentinel escapes
through the top-level loop, which returns `Int 1` early instead of
evaluating `9` — both contradicting the claim that a `ReturnValue` is
never the value of a call expression and is always unwrapped at the call
boundary. -/
theorem C1_return_sentinel_escapes :
    (evalProgram 50 returnEscapeProgram initSt).1 = .ok (.returnValue (.int 1)) ∧
    (evalProgram 50 returnSkipProgram initSt).1 = .ok (.int 1) :=
  ⟨rfl, rfl⟩

/-- C2 (counterexample): the claimed evaluation order of a call is false on
the code.  In `let f = fn(x, y) { x; }; f(nope);` the argument error
(`nope` unbound) would, per the claim, abort the call before the arity
check — but the code reports the arity mismatch (2 expected, 1 given)
and never surfaces the argument error.  And in the second program the
callee's identifier `gg` is only bound by a `let` executed inside the
*argument* expression, yet the call succeeds with `Int 7`, so the callee
is evaluated after the arguments, not first as claimed. -/
theorem C2_claimed_order_refuted :
    (evalProgram 50 arityVsArgErrProgram initSt).1 = .err (.arityMismatch 2 1) ∧
    Res.err (.arityMismatch 2 1) ≠ Res.err (.identifierNotFound "nope") ∧
    (evalProgram 50 argsBeforeCalleeProgram initSt).1 = .ok (.int 7) ∧
    Res.ok (.int 7) ≠ Res.err (.identifierNotFound "gg") := by
  refine ⟨rfl, ?_, rfl, ?_⟩
  · intro h
    injection h with h2
    exact Err.noConfusion h2
  · intro h
    exact Res.noConfusion h

/-- C2 (amended): for every call, the code first evaluates *all* argument
expressions left-to-right in the caller's environment, collecting
per-argument errors without aborting; then evaluates the callee — a callee
evaluation error or a non-function callee is reported at that point; then
checks arity, a mismatch yielding the arity-mismatch error naming expected
and given counts; and only then does the first deferred argument error
propagate, during parameter binding. -/
theorem C2_amended_call_order :
    ∀ (fuel : Nat) (f : Expression) (args : List Expression) (st : EvalSt)
      (rs : List (Except Err Object)) (st1 : EvalSt),
      evalArgs fuel args st = (.ok rs, st1) →
      ((∀ e st2, evalExpr fuel f st1 = (.err e, st2) →
          evalCall (fuel+1) f args st = (.err e, st2)) ∧
       (∀ v st2, evalExpr fuel f st1 = (.ok v, st2) →
          (∀ ps body n, v ≠ .function ps body n) →
          evalCall (fuel+1) f args st = (.err (.notAFunction v), st2)) ∧
       (∀ ps body n st2, evalExpr fuel f st1 = (.ok (.function ps body n), st2) →
          ps.length ≠ rs.length →
          evalCall (fuel+1) f args st = (.err (.arityMismatch ps.length rs.length), st2)) ∧
       (∀ (good : List Object) (e : Err) (bad : List (Except Err Object)) ps body n st2,
          evalExpr fuel f st1 = (.ok (.function ps body n), st2) →
          rs = good.map Except.ok ++ .error e :: bad →
          ps.length = good.length + 1 + bad.length →
          evalCall (fuel+1) f args st = (.err e, st2))) := by
  intro fuel f args st rs st1 h1
  refine ⟨?_, ?_, ?_, ?_⟩
  · intro e st2 h2
    simp [evalCall, h1, h2]
  · intro v st2 h2 hnf
    cases v <;> simp_all [evalCall]
  · intro ps body n st2 h2 hne
    simp [evalCall, h1, h2, hne]
  · intro good e bad ps body n st2 h2 hrs hlen
    subst hrs
    have hlt : good.length < ps.length := by omega
    have hlen' : ps.length =
        ((good.map Except.ok ++ Except.error e :: bad : List (Except Err Object))).length := by
      simp; omega
    simp [evalCall, h1, h2, hlen', bindParams_first_err good ps e bad [] hlt]

/-- C2 (witness): concrete instance of the amended order — calling a
two-parameter function with one (erroring) argument reports the arity
mismatch, not the argument error. -/
theorem C2_amended_call_order_witness :
    evalArgs 10 [Expression.id "nope"] initSt =
      (.ok [.error (.identifierNotFound "nope")], initSt) ∧
    evalExpr 10 (.func ["x", "y"] [.expr (.id "x")]) initSt =
      (.ok (.function ["x", "y"] [.expr (.id "x")] 0), initSt) ∧
    evalCall 11 (.func ["x", "y"] [.expr (.id "x")]) [.id "nope"] initSt =
      (.err (.arityMismatch 2 1), initSt) :=
  ⟨rfl, rfl,
    ((C2_amended_call_order 10 (.func ["x", "y"] [.expr (.id "x")]) [.id "nope"] initSt
      [.error (.identifierNotFound "nope")] initSt rfl).2.2.1)
      ["x", "y"] [.expr (.id "x")] 0 initSt rfl (by decide)⟩

/-- C3 (confirmed): a function literal evaluates to a `Function` value
capturing the environment current at that point (the state is untouched);
invoking a `Function` runs its body in a fresh environment whose parent is
the *captured* environment `n` — never the call-site environment — with
parameters bound positionally, restoring the caller's current environment
around the body's result; and the closure program
`let newAdder = fn(x) { fn(y) { x + y } }; let addTwo = newAdder(2); addTwo(2);`
evaluates to `Int 4`. -/
theorem C3_closure_capture :
    (∀ (fuel : Nat) (ps : List String) (body : List Statement) (st : EvalSt),
       evalExpr (fuel+1) (.func ps body) st = (.ok (.function ps body st.cur), st)) ∧
    (∀ (fuel : Nat) (f : Expression) (args : List Expression) (st : EvalSt)
       (vs : List Object) (st1 : EvalSt) ps body (n : Nat) (st2 : EvalSt),
       evalArgs fuel args st = (.ok (vs.map Except.ok), st1) →
       evalExpr fuel f st1 = (.ok (.function ps body n), st2) →
       ps.length = vs.length →
       ∀ r st4, evalBlockLoop fuel body .null
           ⟨st2.envs ++ [⟨bindStore ps vs [], some n⟩], st2.envs.length⟩ = (r, st4) →
         (∀ v, r = .ok v → evalCall (fuel+1) f args st = (.ok v, ⟨st4.envs, st2.cur⟩)) ∧
         (∀ e, r = .err e → evalCall (fuel+1) f args st = (.err e, ⟨st4.envs, st2.cur⟩))) ∧
    (evalProgram 50 closureProgram initSt).1 = .ok (.int 4) := by
  refine ⟨fun fuel ps body st => rfl, ?_, rfl⟩
  intro fuel f args st vs st1 ps body n st2 h1 h2 hlen r st4 hb
  have hlen' : ps.length = ((vs.map Except.ok : List (Except Err Object))).length := by
    simpa using hlen
  constructor
  · intro v hv
    subst hv
    simp [evalCall, h1, h2, hlen', bindParams_ok, hb]
  · intro e he
    subst he
    simp [evalCall, h1, h2, hlen', bindParams_ok, hb]

/-- C3 (witness): concrete instance — `fn(x) { x; }` applied to `5` runs
its body in a fresh child of the captured (root) environment and yields
`Int 5` with the caller's environment restored. -/
theorem C3_closure_capture_witness :
    evalArgs 10 [Expression.lit (.int 5)] initSt = (.ok [.ok (.int 5)], initSt) ∧
    evalExpr 10 (.func ["x"] [.expr (.id "x")]) initSt =
      (.ok (.function ["x"] [.expr (.id "x")] 0), initSt) ∧
    evalCall 11 (.func ["x"] [.expr (.id "x")]) [.lit (.int 5)] initSt =
      (.ok (.int 5), ⟨initSt.envs ++ [⟨[("x", .int 5)], some 0⟩], 0⟩) :=
  ⟨rfl, rfl, by
    have hblock : evalBlockLoop 10 [Statement.expr (Expression.id "x")] Object.null
        ⟨initSt.envs ++ [⟨bindStore ["x"] [Object.int 5] [], some 0⟩], initSt.envs.length⟩ =
        (Res.ok (Object.int 5),
          (⟨initSt.envs ++ [⟨bindStore ["x"] [Object.int 5] [], some 0⟩],
            initSt.envs.length⟩ : EvalSt)) := rfl
    have h := ((C3_closure_capture.2.1) 10 (.func ["x"] [.expr (.id "x")])
      [.lit (.int 5)] initSt [.int 5] initSt ["x"] [.expr (.id "x")] 0 initSt
      rfl rfl rfl _ _ hblock).1 (.int 5) rfl
    exact h⟩

/-- C5 (confirmed): operator dispatch on two evaluated operands admits
exactly the claimed typed combinations — all eight operators on
integer ⨯ integer (with `/` the truncating integer division, defined for a
nonzero divisor), only `==`/`!=` on boolean ⨯ boolean, only `+`
(concatenation) on string ⨯ string — and every other operand-type pair, or
an operator outside the set valid for a matching pair, yields the
unsupported-operator error carrying the operator's display string and both
operand type names; `5 + true;` reports operator `+` with types
`int` and `bool`. -/
theorem C5_typed_operator_dispatch :
    (∀ l r : Int,
      binDispatch .plus (.int l) (.int r) = .ok (.int (l + r)) ∧
      binDispatch .minus (.int l) (.int r) = .ok (.int (l - r)) ∧
      binDispatch .product (.int l) (.int r) = .ok (.int (l * r)) ∧
      (r ≠ 0 → binDispatch .divide (.int l) (.int r) = .ok (.int (Int.tdiv l r))) ∧
      binDispatch .equal (.int l) (.int r) = .ok (.bool (decide (l = r))) ∧
      binDispatch .notEqual (.int l) (.int r) = .ok (.bool (decide (l ≠ r))) ∧
      binDispatch .greaterThan (.int l) (.int r) = .ok (.bool (decide (l > r))) ∧
      binDispatch .lessThan (.int l) (.int r) = .ok (.bool (decide (l < r)))) ∧
    (∀ l r : Bool,
      binDispatch .equal (.bool l) (.bool r) = .ok (.bool (l == r)) ∧
      binDispatch .notEqual (.bool l) (.bool r) = .ok (.bool (l != r)) ∧
      (∀ op : BinOp, op ≠ .equal → op ≠ .notEqual →
        binDispatch op (.bool l) (.bool r) = .err (.unsupportedBinOp op.display "bool" "bool"))) ∧
    (∀ l r : String,
      binDispatch .plus (.str l) (.str r) = .ok (.str (l ++ r)) ∧
      (∀ op : BinOp, op ≠ .plus →
        binDispatch op (.str l) (.str r) = .err (.unsupportedBinOp op.display "string" "string"))) ∧
    (∀ (op : BinOp) (l r : Object),
      (l.isInt && r.isInt) = false → (l.isBool && r.isBool) = false →
      (l.isStr && r.isStr) = false →
      binDispatch op l r = .err (.unsupportedBinOp op.display l.getType r.getType)) ∧
    (evalProgram 50 intPlusBoolProgram initSt).1 = .err (.unsupportedBinOp "+" "int" "bool") := by
  refine ⟨?_, ?_, ?_, ?_, rfl⟩
  · intro l r
    refine ⟨rfl, rfl, rfl, fun h => ?_, rfl, rfl, rfl, rfl⟩
    simp [binDispatch, evalIntegerOp, h]
  · intro l r
    refine ⟨rfl, rfl, fun op h1 h2 => ?_⟩
    cases op <;> simp_all [binDispatch, evalBoolOp]
  · intro l r
    refine ⟨rfl, fun op h => ?_⟩
    cases op <;> simp_all [binDispatch, evalStringOp]
  · intro op l r h1 h2 h3
    cases l <;> cases r <;> simp_all [Object.isInt, Object.isBool, Object.isStr, binDispatch]

/-- C5 (witness): concrete instances — truncating division `7 / 2 = 3`,
a boolean `<` is unsupported, string `-` is unsupported, and a
function ⨯ int pair is unsupported with the right type names. -/
theorem C5_typed_operator_dispatch_witness :
    binDispatch .divide (.int 7) (.int 2) = .ok (.int 3) ∧
    binDispatch .lessThan (.bool true) (.bool false) =
      .err (.unsupportedBinOp "<" "bool" "bool") ∧
    binDispatch .minus (.str "a") (.str "b") =
      .err (.unsupportedBinOp "-" "string" "string") ∧
    binDispatch .plus (.function [] [] 0) (.int 1) =
      .err (.unsupportedBinOp "+" "function" "int") :=
  ⟨by simpa using (C5_typed_operator_dispatch.1 7 2).2.2.2.1 (by decide),
   (C5_typed_operator_dispatch.2.1 true false).2.2 .lessThan (by decide) (by decide),
   (C5_typed_operator_dispatch.2.2.1 "a" "b").2 .minus (by decide),
   C5_typed_operator_dispatch.2.2.2.1 .plus (.function [] [] 0) (.int 1) rfl rfl rfl⟩

/-- C6 (counterexample): `parse_program` itself can fail.  On the token
stream `5` followed by a repeating lexer error, the parser's own advance
between statements pulls the lexer error and `parse_program` returns it
instead of a `Program`. -/
theorem C6_parse_program_can_fail :
    parse_program lexErrStream 50 (initParser lexErrStream) =
      some (.error "illegal character", ⟨3, .illegal, .illegal⟩) :=
  rfl

/-- Advancing the lookahead window over an error-free token stream never
fails: the pull either reads a token or synthesises `Eof` past the end. -/
theorem next_token_allOk (toks : List Token) (st : PSt) :
    ∃ st', next_token (toks.map Except.ok) st = (.ok (), st') := by
  cases hg : toks[st.pos]? with
  | none =>
    refine ⟨⟨st.pos + 1, st.peek, .eof⟩, ?_⟩
    simp [next_token, pull, List.getElem?_map, hg]
  | some t =>
    refine ⟨⟨st.pos + 1, st.peek, t⟩, ?_⟩
    simp [next_token, pull, List.getElem?_map, hg]

/-- On an error-free token stream, every terminating run of the program
loop returns `Ok`: the loop's only failure source is its own lexer pull. -/
theorem parse_program_loop_allOk (toks : List Token) :
    ∀ (fuel : Nat) (acc : List (Except String Statement)) (st : PSt) res st',
      parse_program_loop (toks.map Except.ok) fuel acc st = some (res, st') →
      isOkResult res = true := by
  intro fuel
  induction fuel with
  | zero =>
    intro acc st res st' h
    simp [parse_program_loop] at h
  | succ fuel ih =>
    intro acc st res st' h
    rw [parse_program_loop] at h
    split at h
    · cases h
      rfl
    · split at h
      · cases h
      · rename_i r st1 hps
        split at h
        · rename_i e st2 hnt2
          obtain ⟨st2', hnt⟩ := next_token_allOk toks st1
          rw [hnt] at hnt2
          simp at hnt2
        · rename_i st2 hnt2
          exact ih _ _ _ _ h

/-- C6 (amended): `parse_program` returns a `Result`: per-statement parse
failures are captured as error elements inside the returned sequence while
parsing continues at the next statement, but a lexer token-read failure
pulled by `parse_program`'s own advance between statements propagates and
makes `parse_program` itself fail; on an error-free token stream every
terminating run of `parse_program` returns `Ok`. -/
theorem C6_amended_lexer_errors_only :
    (∀ (toks : List Token) (fuel : Nat) (st : PSt) res st',
       parse_program (toks.map Except.ok) fuel st = some (res, st') →
       isOkResult res = true) ∧
    parse_program recovStream 20 (initParser recovStream) =
      some (.ok [.error "Missing indentifier in let statement",
                 .ok (.expr (.lit (.int 7)))], ⟨7, .eof, .eof⟩) := by
  constructor
  · intro toks fuel st res st' h
    match fuel, h with
    | fuel+1, h =>
      exact parse_program_loop_allOk toks fuel [] st res st'
        (by simpa [parse_program] using h)
  · rfl

/-- C6 (witness): the amended theorem applied to the error-free stream of
`let 5; 7` — the run terminates with an `Ok` program whose first element
records the statement's parse error. -/
theorem C6_amended_witness :
    isOkResult (Except.ok [Except.error "Missing indentifier in let statement",
      Except.ok (Statement.expr (.lit (.int 7)))] :
        Except String (List (Except String Statement))) = true :=
  C6_amended_lexer_errors_only.1 [Token.letT, .int 5, .semicolon, .int 7] 20
    (initParser recovStream) _ ⟨7, .eof, .eof⟩ rfl

/-- C7 (counterexample): evaluating `5 / 0;` does not return a value or an
evaluation error — it traps (the Rust `i64` division panics on a zero
divisor), refuting the claim that every integer ⨯ integer infix evaluation
returns a `Value` or an `EvalError` including division by zero. -/
theorem C7_division_by_zero_traps :
    (evalProgram 50 divByZeroProgram initSt).1 = Res.trap ∧
    Res.trap.isAbort = true :=
  ⟨rfl, rfl⟩

/-- C7 (amended): integer ⨯ integer operator application returns a value
for every pair of operands and every operator *except* division with a
zero divisor, which panics (traps) instead of surfacing as an error result
(integer overflow is outside this model, matching the specification's
"unspecified" policy). -/
theorem C7_amended_total_except_zero_divisor :
    ∀ (op : BinOp) (l r : Int), (op = .divide → r ≠ 0) →
      (evalIntegerOp op l r).isSome = true := by
  intro op l r h
  cases op <;> simp_all [evalIntegerOp]

/-- C7 (witness): division with a nonzero divisor yields a value. -/
theorem C7_amended_witness :
    ((0 : Int) ≠ 0 → False) ∧ (evalIntegerOp .divide 5 2).isSome = true :=
  ⟨fun h => h rfl, C7_amended_total_except_zero_divisor .divide 5 2 (fun _ => by decide)⟩

/-- C8 (confirmed): a value is falsy exactly when it is `Null` or
`Bool false` (so `Int 0` is truthy); `if` evaluates its condition once and
then exactly the branch block selected by truthiness; and a falsy
condition with an empty alternative block evaluates to `Null`. -/
theorem C8_truthiness_and_conditional :
    (∀ v : Object, isTruthy v = false ↔ (v = .null ∨ v = .bool false)) ∧
    isTruthy (.int 0) = true ∧
    (∀ (fuel : Nat) (c : Expression) (cons alt : List Statement) (st : EvalSt) v st1,
      evalExpr fuel c st = (.ok v, st1) →
      evalIf (fuel+1) c cons alt st =
        if isTruthy v then evalBlockLoop fuel cons .null st1
        else evalBlockLoop fuel alt .null st1) ∧
    (∀ (fuel : Nat) (c : Expression) (cons : List Statement) (st : EvalSt) v st1,
      evalExpr (fuel+1) c st = (.ok v, st1) → isTruthy v = false →
      evalIf (fuel+2) c cons [] st = (.ok .null, st1)) := by
  refine ⟨?_, rfl, ?_, ?_⟩
  · intro v
    cases v with
    | bool b => cases b <;> simp [isTruthy]
    | _ => simp [isTruthy]
  · intro fuel c cons alt st v st1 h
    simp [evalIf, h]
  · intro fuel c cons st v st1 h hf
    simp [evalIf, h, hf, evalBlockLoop]

/-- C8 (witness): `if (false) { 10 }` (empty alternative) yields `Null`. -/
theorem C8_truthiness_and_conditional_witness :
    evalIf 4 (.lit (.bool false)) [.expr (.lit (.int 10))] [] initSt =
      (.ok .null, initSt) :=
  C8_truthiness_and_conditional.2.2.2 2 (.lit (.bool false)) [.expr (.lit (.int 10))]
    initSt (.bool false) initSt rfl rfl

/-- C10 (confirmed): when `eval` meets a parse-error element it returns
that parse error at once with the state (hence all `let` bindings made so
far) intact, and nothing after it is evaluated; each successful
non-`return` statement before it is evaluated normally, its value becoming
the running result and its bindings persisting; concretely, for
`let a = 5;` + parse error + `let b = 6;`, evaluation returns the parse
error while `a` remains bound to `Int 5` and `b` is never bound. -/
theorem C10_parse_error_aborts_eval :
    (∀ (fuel : Nat) (msg : String) (post : List (Except String Statement))
       (res : Object) (st : EvalSt),
       evalProgramLoop (fuel+1) (.error msg :: post) res st = (.err (.parse msg), st)) ∧
    (∀ (fuel : Nat) (stmt : Statement) (rest : List (Except String Statement))
       (res v : Object) (st st' : EvalSt),
       evalStatement fuel stmt st = (.ok v, st') →
       (∀ w, v ≠ .returnValue w) →
       evalProgramLoop (fuel+1) (.ok stmt :: rest) res st = evalProgramLoop fuel rest v st') ∧
    (evalProgram 50 letThenErrProgram initSt).1 = .err (.parse "bad statement") ∧
    (evalProgram 50 letThenErrProgram initSt).2.get "a" = some (.int 5) ∧
    (evalProgram 50 letThenErrProgram initSt).2.get "b" = none := by
  refine ⟨?_, ?_, rfl, rfl, rfl⟩
  · intro fuel msg post res st
    simp [evalProgramLoop]
  · intro fuel stmt rest res v st st' h hnr
    cases v <;> simp_all [evalProgramLoop]

/-- C10 (witness): a successful first statement steps the program loop to
the remaining statements with its value as the running result. -/
theorem C10_parse_error_aborts_eval_witness :
    evalProgramLoop 3 [.ok (.expr (.lit (.int 1))), .error "oops"] .null initSt =
      evalProgramLoop 2 [.error "oops"] (.int 1) initSt :=
  C10_parse_error_aborts_eval.2.1 2 (.expr (.lit (.int 1))) [.error "oops"] .null
    (.int 1) initSt initSt rfl (fun w h => by cases h)

/-- C9 (confirmed): given the argument list evaluated without aborting and
the callee evaluated to a value, the completed call (with a value or an
error outcome) leaves the current environment exactly the caller's; every
environment frame that existed before the call, other than the caller's
own, is untouched; and the caller's frame afterwards is exactly as the
argument-and-callee evaluation left it — parameter binding and the body
run in the fresh child environment only, and the caller's environment is
restored whether the body succeeded or errored. -/
theorem C9_caller_env_restored :
    ∀ (fuel : Nat) (f : Expression) (args : List Expression) (st : EvalSt)
      (rs : List (Except Err Object)) (st1 : EvalSt) (fv : Object) (st2 : EvalSt),
      st.cur < st.envs.length →
      evalArgs fuel args st = (.ok rs, st1) →
      evalExpr fuel f st1 = (.ok fv, st2) →
      ∀ r st', evalCall (fuel+1) f args st = (r, st') →
        (r.isAbort = false → st'.cur = st.cur) ∧
        (∀ i, i < st.envs.length → i ≠ st.cur → st'.envs[i]? = st.envs[i]?) ∧
        st'.envs[st.cur]? = st2.envs[st.cur]? := by
  intro fuel f args st rs st1 fv st2 hcur hargs hf r st' hcall
  have hstepA := (evalMaster fuel).2.2.2.2.2.2.1 args st
  rw [hargs] at hstepA
  have hstepF := (evalMaster fuel).1 f st1
  rw [hf] at hstepF
  have hAF : stepOk st (Res.ok fv, st2) := stepOkG_comp hstepA rfl hstepF
  obtain ⟨cA, lA, fA⟩ := hAF
  have hc2 : st2.cur = st.cur := cA rfl
  have hl2 : st.envs.length ≤ st2.envs.length := lA
  rw [evalCall, hargs] at hcall
  dsimp only at hcall
  rw [hf] at hcall
  dsimp only at hcall
  cases fv with
  | function ps body envIdx =>
    dsimp only at hcall
    by_cases hlen : ps.length ≠ rs.length
    · rw [if_pos hlen] at hcall
      rw [Prod.mk.injEq] at hcall
      obtain ⟨rfl, rfl⟩ := hcall
      exact ⟨fun _ => hc2, fun i hi hne => fA i hi hne, rfl⟩
    · rw [if_neg hlen] at hcall
      cases hbp : bindParams ps rs [] with
      | error e =>
        rw [hbp] at hcall
        dsimp only at hcall
        rw [Prod.mk.injEq] at hcall
        obtain ⟨rfl, rfl⟩ := hcall
        exact ⟨fun _ => hc2, fun i hi hne => fA i hi hne, rfl⟩
      | ok store =>
        rw [hbp] at hcall
        dsimp only at hcall
        rcases hb : evalBlockLoop fuel body .null
            ⟨st2.envs ++ [⟨store, some envIdx⟩], st2.envs.length⟩ with ⟨rb, st4⟩
        have hstepB := (evalMaster fuel).2.2.2.2.2.1 body Object.null
            ⟨st2.envs ++ [⟨store, some envIdx⟩], st2.envs.length⟩
        rw [hb] at hstepB
        rw [hb] at hcall
        obtain ⟨cB, lB, fB⟩ := hstepB
        have hcur2 : st.cur < st2.envs.length := lt_of_lt_of_le hcur hl2
        have hpre : ∀ i, i < st2.envs.length → st4.envs[i]? = st2.envs[i]? := by
          intro i hi
          have h3 : st4.envs[i]? = (st2.envs ++ [(⟨store, some envIdx⟩ : Env)])[i]? := by
            refine fB i ?_ ?_
            · show i < (st2.envs ++ [(⟨store, some envIdx⟩ : Env)]).length
              simp
              omega
            · show i ≠ st2.envs.length
              omega
          rw [h3, List.getElem?_append_left hi]
        cases rb with
        | ok v =>
          rw [Prod.mk.injEq] at hcall
          obtain ⟨rfl, rfl⟩ := hcall
          refine ⟨fun _ => hc2, fun i hi hne => ?_, ?_⟩
          · show st4.envs[i]? = st.envs[i]?
            rw [hpre i (lt_of_lt_of_le hi hl2), fA i hi hne]
          · show st4.envs[st.cur]? = st2.envs[st.cur]?
            exact hpre st.cur hcur2
        | err e =>
          rw [Prod.mk.injEq] at hcall
          obtain ⟨rfl, rfl⟩ := hcall
          refine ⟨fun _ => hc2, fun i hi hne => ?_, ?_⟩
          · show st4.envs[i]? = st.envs[i]?
            rw [hpre i (lt_of_lt_of_le hi hl2), fA i hi hne]
          · show st4.envs[st.cur]? = st2.envs[st.cur]?
            exact hpre st.cur hcur2
        | trap =>
          rw [Prod.mk.injEq] at hcall
          obtain ⟨rfl, rfl⟩ := hcall
          refine ⟨fun h => by simp [Res.isAbort] at h, fun i hi hne => ?_, ?_⟩
          · rw [hpre i (lt_of_lt_of_le hi hl2), fA i hi hne]
          · exact hpre st.cur hcur2
        | fuelOut =>
          rw [Prod.mk.injEq] at hcall
          obtain ⟨rfl, rfl⟩ := hcall
          refine ⟨fun h => by simp [Res.isAbort] at h, fun i hi hne => ?_, ?_⟩
          · rw [hpre i (lt_of_lt_of_le hi hl2), fA i hi hne]
          · exact hpre st.cur hcur2
  | int n =>
    dsimp only at hcall
    rw [Prod.mk.injEq] at hcall
    obtain ⟨rfl, rfl⟩ := hcall
    exact ⟨fun _ => hc2, fun i hi hne => fA i hi hne, rfl⟩
  | bool b =>
    dsimp only at hcall
    rw [Prod.mk.injEq] at hcall
    obtain ⟨rfl, rfl⟩ := hcall
    exact ⟨fun _ => hc2, fun i hi hne => fA i hi hne, rfl⟩
  | str v =>
    dsimp only at hcall
    rw [Prod.mk.injEq] at hcall
    obtain ⟨rfl, rfl⟩ := hcall
    exact ⟨fun _ => hc2, fun i hi hne => fA i hi hne, rfl⟩
  | null =>
    dsimp only at hcall
    rw [Prod.mk.injEq] at hcall
    obtain ⟨rfl, rfl⟩ := hcall
    exact ⟨fun _ => hc2, fun i hi hne => fA i hi hne, rfl⟩
  | returnValue v =>
    dsimp only at hcall
    rw [Prod.mk.injEq] at hcall
    obtain ⟨rfl, rfl⟩ := hcall
    exact ⟨fun _ => hc2, fun i hi hne => fA i hi hne, rfl⟩
  | empty =>
    dsimp only at hcall
    rw [Prod.mk.injEq] at hcall
    obtain ⟨rfl, rfl⟩ := hcall
    exact ⟨fun _ => hc2, fun i hi hne => fA i hi hne, rfl⟩

/-- C9 (witness): calling `fn() { 1 }` with no arguments from the initial
state restores the root environment as current and leaves it untouched. -/
theorem C9_caller_env_restored_witness :
    ((⟨[⟨[], none⟩, ⟨[], some 0⟩], 0⟩ : EvalSt).cur = initSt.cur) ∧
    (⟨[⟨[], none⟩, ⟨[], some 0⟩], 0⟩ : EvalSt).envs[initSt.cur]? =
      initSt.envs[initSt.cur]? :=
  ⟨(C9_caller_env_restored 10 (.func [] [.expr (.lit (.int 1))]) [] initSt [] initSt
      (.function [] [.expr (.lit (.int 1))] 0) initSt (by decide) rfl rfl
      (.ok (.int 1)) ⟨[⟨[], none⟩, ⟨[], some 0⟩], 0⟩ rfl).1 rfl,
   (C9_caller_env_restored 10 (.func [] [.expr (.lit (.int 1))]) [] initSt [] initSt
      (.function [] [.expr (.lit (.int 1))] 0) initSt (by decide) rfl rfl
      (.ok (.int 1)) ⟨[⟨[], none⟩, ⟨[], some 0⟩], 0⟩ rfl).2.2⟩

/-- C4: for every expression built only from `+ - * /` and parentheses over
integer literals that the reference grammar (left-associative,
precedence-respecting standard integer arithmetic, `refE`) assigns a value,
the interpreter pipeline (lex-parse-eval, `runToks`) produces exactly that
integer, given enough fuel; in particular `5 + 5 + 5 + 5 - 10` evaluates to
`Int(10)`, `2 * (5 + 10)` to `Int(30)` and `3 * (3 * 3) + 10` to `Int(37)`. -/
theorem C4_arith_precedence :
    (∀ (toks : List Token) (v : Int) (rf : Nat),
       (∀ t ∈ toks, isArithTok t = true) → refE rf toks = some (v, []) →
       ∃ pf ef, runToks pf ef (toks.map Except.ok) = some (.ok (.int v))) ∧
    runToks 50 50 (arithTokens1.map Except.ok) = some (.ok (.int 10)) ∧
    runToks 50 50 (arithTokens2.map Except.ok) = some (.ok (.int 30)) ∧
    runToks 50 50 (arithTokens3.map Except.ok) = some (.ok (.int 37)) :=
  ⟨refE_runToks, rfl, rfl, rfl⟩

/-- Witness for C4 at the concrete stream `2 + 3`: the hypotheses are
discharged by `decide`/`rfl` and the pipeline yields `Int(5)`. -/
theorem C4_arith_precedence_witness :
    ∃ pf ef, runToks pf ef ([Token.int 2, Token.plus, Token.int 3].map Except.ok) =
      some (.ok (.int 5)) :=
  C4_arith_precedence.1 [Token.int 2, Token.plus, Token.int 3] 5 10 (by decide) (by rfl)

end Monkey
